import Mathlib

/-!
Verification of the goread EPUB terminal reader against its specification.

Go strings are embedded as `List Char` (`Str`); byte indices of the Go
`strings` package coincide with character indices on the ASCII inputs used
throughout.  Go's `-1` sentinel indices are embedded as `Option Nat`
(`none` standing for `-1`).  External library functions (XML decoding,
`html.Parse`, `html.Render`, `filepath.Dir`, UUID generation) are treated
as oracle parameters of the embedded repository functions; everything in
the repository's own packages (`pkg/parser`, `pkg/epub`, `pkg/reader`,
`pkg/utils`) is translated faithfully from the source.
-/

set_option maxHeartbeats 2000000

namespace Goread

abbrev Str := List Char

/-- String literal helper: a Lean `String` as a list of characters. -/
def str (s : String) : Str := s.toList

/-- Embeds Go `strings.Index(s[acc-shifted], pat)`: index of the first
occurrence of `pat` in `s`, offset by `acc`. -/
def strIndexFrom (pat : Str) : Nat → Str → Option Nat
  | acc, s =>
    if pat.isPrefixOf s then some acc
    else
      match s with
      | [] => none
      | _ :: t => strIndexFrom pat (acc + 1) t

/-- Embeds Go `strings.Index(s, pat)` (`none` = Go's `-1`). -/
def strIndexN (s pat : Str) : Option Nat := strIndexFrom pat 0 s

/-- Auxiliary scan remembering the last match position. -/
def strLastIndexAux (pat : Str) : Nat → Str → Option Nat → Option Nat
  | acc, s, best =>
    let best' := if pat.isPrefixOf s then some acc else best
    match s with
    | [] => best'
    | _ :: t => strLastIndexAux pat (acc + 1) t best'

/-- Embeds Go `strings.LastIndex(s, pat)` (`none` = Go's `-1`). -/
def strLastIndex (s pat : Str) : Option Nat := strLastIndexAux pat 0 s none

/-- Embeds Go `unicode.IsSpace` on the code points relevant here. -/
def goIsSpace (c : Char) : Bool :=
  c = (' ') ∨ c = ('\t') ∨ c = ('\n') ∨ c = (Char.ofNat 11) ∨
  c = (Char.ofNat 12) ∨ c = ('\r') ∨ c = (Char.ofNat 133) ∨ c = (Char.ofNat 160)

/-- Embeds Go `strings.TrimSpace`. -/
def trimSpace (s : Str) : Str :=
  ((s.dropWhile goIsSpace).reverse.dropWhile goIsSpace).reverse

/-- Embeds the Go slice expression `s[a:b]`. -/
def slice (s : Str) (a b : Nat) : Str := (s.take b).drop a

/-! ## pkg/epub: package-document model (epub.go) -/

/-- `ManifestItem` of `pkg/epub/epub.go`. -/
structure ManifestItem where
  id : Str
  href : Str
  mediaType : Str
  properties : Str
deriving Repr, DecidableEq

/-- `SpineItem` of `pkg/epub/epub.go`. -/
structure SpineItem where
  idref : Str
deriving Repr, DecidableEq

/-- `Package` of `pkg/epub/epub.go` (metadata omitted: not consulted by the
functions verified here). -/
structure Package where
  version : Str
  manifest : List ManifestItem
  spine : List SpineItem
deriving Repr, DecidableEq

/-- `RootFile` of `pkg/epub/epub.go`. -/
structure RootFileDecl where
  fullPath : Str
  mediaType : Str
deriving Repr, DecidableEq

/-- `Container` of `pkg/epub/epub.go`. -/
structure EpubContainer where
  rootFiles : List RootFileDecl
deriving Repr, DecidableEq

/-- The NCX media type constant compared against in `parseRootFile`. -/
def ncxMediaType : Str := str ("application/x-dtbncx+xml")

/-- Embeds `(e *Epub) parseContainer` (epub.go).  The XML decoding of
`META-INF/container.xml` and `filepath.Dir` are oracles (`c` is the decoded
container, `dir` the path-dirname function).  On success returns
`(RootFile, RootDir)` exactly as the method stores them.  Note: the function
consults nothing but the decoded container — in particular no archive
directory listing. -/
def parseContainer (dir : Str → Str) (c : EpubContainer) : Except Str (Str × Str) :=
  match c.rootFiles with
  | [] => Except.error (str ("no rootfile found in container.xml"))
  | rf :: _ =>
    let rootFile := rf.fullPath
    let rootDir0 := dir rootFile
    let rootDir := if rootDir0 ≠ [] then rootDir0 ++ str ("/") else rootDir0
    Except.ok (rootFile, rootDir)

/-- Which branch of `parseRootFile` selected the TOC manifest item. -/
inductive TOCSelection where
  | ncx (it : ManifestItem)
  | nav (it : ManifestItem)
deriving Repr, DecidableEq

/-- Embeds the TOC-file selection logic of `(e *Epub) parseRootFile`
(epub.go): first the loop over the manifest looking for the NCX media type,
then — only if that loop found nothing and the version is "3.0" — the loop
looking for `properties == "nav"`.  Records which branch selected the item. -/
def selectTOCItem (pkg : Package) : Option TOCSelection :=
  match pkg.manifest.find? (fun it => it.mediaType = ncxMediaType) with
  | some it => some (TOCSelection.ncx it)
  | none =>
    if pkg.version = str ("3.0") then
      match pkg.manifest.find? (fun it => it.properties = str ("nav")) with
      | some it => some (TOCSelection.nav it)
      | none => none
    else none

/-- Embeds the path assembly of `parseRootFile`: `e.TOC` as stored from the
selected item (`RootDir + item.Href` when `RootDir` is non-empty). -/
def parseRootFileTOC (rootDir : Str) (pkg : Package) : Option Str :=
  match selectTOCItem pkg with
  | some (TOCSelection.ncx it) =>
    some (if rootDir ≠ [] then rootDir ++ it.href else it.href)
  | some (TOCSelection.nav it) =>
    some (if rootDir ≠ [] then rootDir ++ it.href else it.href)
  | none => none

/-! ## pkg/parser/anchor.go: anchor extraction -/

/-- The four start-anchor attribute patterns built in `findAnchorPositions`
(`id="X"`, `id='X'`, `name="X"`, `name='X'`). -/
def anchorPatterns (a : Str) : List Str :=
  [ str ("id=\"") ++ a ++ str ("\""),
    str ("id='") ++ a ++ str ("'"),
    str ("name=\"") ++ a ++ str ("\""),
    str ("name='") ++ a ++ str ("'") ]

/-- The first start-anchor pattern (`id="X"`). -/
def patIdDq (a : Str) : Str := str ("id=\"") ++ a ++ str ("\"")

/-- Embeds the backward walk of `findAnchorPositions`:
`for tagStart > 0 && content[tagStart] != '<' { tagStart-- }`. -/
def walkBack (content : Str) : Nat → Nat
  | 0 => 0
  | Nat.succ k =>
    if content.getD (k + 1) ('x') = ('<') then k + 1 else walkBack content k

/-- Embeds the start-anchor loop of `findAnchorPositions`.  Carries the
`startTagPos` accumulator (it is overwritten by each matching pattern, and
the loop breaks only when a closing `>` is also found).  Returns
`(startPos, startTagPos)`. -/
def findStartLoop (content : Str) : List Str → Option Nat → Option Nat × Option Nat
  | [], stp => (none, stp)
  | pat :: rest, stp =>
    match strIndexN content pat with
    | none => findStartLoop content rest stp
    | some pos =>
      let stp' := some (walkBack content pos)
      match strIndexN (content.drop pos) (str (">")) with
      | none => findStartLoop content rest stp'
      | some closePos => (some (pos + closePos + 1), stp')

/-- Embeds the end-anchor loop of `findAnchorPositions`: scan forward from
`startPos`, then take the last `<` before the matched pattern. -/
def findEndLoop (content : Str) (startPos : Nat) : List Str → Option Nat
  | [] => none
  | pat :: rest =>
    match strIndexN (content.drop startPos) pat with
    | none => findEndLoop content startPos rest
    | some pos =>
      match strLastIndex (slice content startPos (startPos + pos)) (str ("<")) with
      | none => findEndLoop content startPos rest
      | some lastOpen => some (startPos + lastOpen)

/-- Embeds `findAnchorPositions` (anchor.go).  Returns
`(startPos, endPos, startTagPos)`, each `none` standing for Go's `-1`. -/
def findAnchorPositions (content startAnchor nextAnchor : Str) :
    Option Nat × Option Nat × Option Nat :=
  let se := findStartLoop content (anchorPatterns startAnchor) none
  let endPos :=
    match se.1 with
    | some sp =>
      if nextAnchor ≠ [] then findEndLoop content sp (anchorPatterns nextAnchor)
      else none
    | none => none
  (se.1, endPos, se.2)

/-! ### DOM model for the fallback path

`golang.org/x/net/html` nodes; `html.Parse` and `html.Render` are external
library functions and enter the embedding as oracle parameters. -/

/-- `html.NodeType`. -/
inductive HtmlNodeType where
  | errorNode | textNode | documentNode | elementNode | commentNode | doctypeNode
deriving Repr, DecidableEq

/-- `html.Attribute` (namespace omitted; unused by the repository code). -/
structure HtmlAttr where
  key : Str
  val : Str
deriving Repr, DecidableEq

/-- `html.Node` (tree form: `FirstChild`/`NextSibling` become a child list). -/
inductive HtmlNode where
  | node (type : HtmlNodeType) (data : Str) (attr : List HtmlAttr)
      (children : List HtmlNode)

def HtmlNode.nodeType : HtmlNode → HtmlNodeType
  | .node t _ _ _ => t

def HtmlNode.data : HtmlNode → Str
  | .node _ d _ _ => d

def HtmlNode.attr : HtmlNode → List HtmlAttr
  | .node _ _ a _ => a

def HtmlNode.children : HtmlNode → List HtmlNode
  | .node _ _ _ c => c

/-- Embeds the `hasAnchor` closure of `extractContentDOM`: an element node
with an `id` or `name` attribute equal to the (non-empty) anchor. -/
def hasAnchor (n : HtmlNode) (anchor : Str) : Bool :=
  if n.nodeType ≠ HtmlNodeType.elementNode ∨ anchor = [] then false
  else n.attr.any (fun a =>
    (a.key = str ("id") ∨ a.key = str ("name")) ∧ a.val = anchor)

mutual

/-- Whether some node of the tree carries the anchor (the set of nodes the
DOM strategy can find, since the pre-capture traversal is a full DFS). -/
def anyHasAnchor (anchor : Str) : HtmlNode → Bool
  | .node t d a c => hasAnchor (.node t d a c) anchor || anyHasAnchorList anchor c

/-- List form of `anyHasAnchor`. -/
def anyHasAnchorList (anchor : Str) : List HtmlNode → Bool
  | [] => false
  | n :: ns => anyHasAnchor anchor n || anyHasAnchorList anchor ns

end

/-- The mutable state of the `traverse` closure in `extractContentDOM`. -/
structure DomState where
  found : Bool
  capturing : Bool
  endFound : Bool
  buf : Str
deriving Repr

mutual

/-- Embeds the `traverse` closure of `extractContentDOM` (anchor.go).
`render` is the `html.Render` oracle; `renderContent n` is
`renderNodeContent` (children only).  Returns the closure's boolean result
plus the updated state. -/
def traverseNode (render : HtmlNode → Str) (startAnchor nextAnchor : Str)
    (includeStartTag : Bool) : HtmlNode → DomState → Bool × DomState
  | HtmlNode.node t d a c, st =>
    let n := HtmlNode.node t d a c
    if ¬ st.found ∧ hasAnchor n startAnchor then
      let st1 : DomState :=
        { st with found := true, capturing := true,
                  buf := st.buf ++
                    (if includeStartTag then render n
                     else (c.map render).flatten) }
      if includeStartTag then (false, st1)
      else
        let r := traverseList render startAnchor nextAnchor includeStartTag c st1
        if r.1 then (true, r.2) else (false, r.2)
    else if st.capturing ∧ nextAnchor ≠ [] ∧ hasAnchor n nextAnchor then
      (true, { st with endFound := true, capturing := false })
    else if st.capturing then
      (false, { st with buf := st.buf ++ render n })
    else if ¬ st.endFound then
      let r := traverseList render startAnchor nextAnchor includeStartTag c st
      if r.1 then (true, r.2) else (r.2.endFound, r.2)
    else (st.endFound, st)

/-- The sibling loop `for c := ...; if traverse(c) { return true }`. -/
def traverseList (render : HtmlNode → Str) (startAnchor nextAnchor : Str)
    (includeStartTag : Bool) : List HtmlNode → DomState → Bool × DomState
  | [], st => (false, st)
  | n :: ns, st =>
    let r := traverseNode render startAnchor nextAnchor includeStartTag n st
    if r.1 then (true, r.2)
    else traverseList render startAnchor nextAnchor includeStartTag ns r.2

end

/-- Embeds `extractContentDOM` (anchor.go): run the traversal from a clean
state; the Go function returns `(found, nil)` with the buffer's content. -/
def extractContentDOM (render : HtmlNode → Str) (n : HtmlNode)
    (startAnchor nextAnchor : Str) (includeStartTag : Bool) : Bool × Str :=
  let r := traverseNode render startAnchor nextAnchor includeStartTag n
    { found := false, capturing := false, endFound := false, buf := [] }
  (r.2.found, r.2.buf)

/-- Error outcomes of `ExtractBetweenAnchors` (the `fmt.Errorf` messages). -/
inductive ExtractErr where
  | emptyContent      -- "empty content"
  | emptyStartAnchor  -- "empty start anchor"
  | anchorNotFound    -- "start anchor '%s' not found"
  | noContent         -- "no content found between anchors"
deriving Repr, DecidableEq

/-- Embeds `ExtractBetweenAnchors` (anchor.go).  `parse` is the
`html.Parse` oracle (total: parsing a string never fails in
`golang.org/x/net/html`), `render` the `html.Render` oracle. -/
def ExtractBetweenAnchors (parse : Str → HtmlNode) (render : HtmlNode → Str)
    (content startAnchor nextAnchor : Str) : Except ExtractErr Str :=
  if content = [] then Except.error ExtractErr.emptyContent
  else if startAnchor = [] then Except.error ExtractErr.emptyStartAnchor
  else
    let pos := findAnchorPositions content startAnchor nextAnchor
    let fast : Option Str :=
      match pos.2.2 with
      | some stp =>
        let ep :=
          match pos.2.1 with
          | some e => e
          | none => content.length
        let extracted := slice content stp ep
        if trimSpace extracted ≠ [] then some extracted else none
      | none => none
    match fast with
    | some r => Except.ok r
    | none =>
      let doc := parse content
      let dom := extractContentDOM render doc startAnchor nextAnchor true
      if ¬ dom.1 then Except.error ExtractErr.anchorNotFound
      else if trimSpace dom.2 = [] then Except.error ExtractErr.noContent
      else Except.ok dom.2

/-- Concrete container for the C7 counterexample: the first declared
rootfile is `content.opf`, not under `OEBPS`. -/
def c7Container : EpubContainer :=
  { rootFiles := [ { fullPath := str ("content.opf"),
                     mediaType := str ("application/oebps-package+xml") } ] }

/-- Concrete archive entry listing for the C7 counterexample: the archive
holds a top-level `OEBPS` directory containing a file of the same name as
the declared rootfile. -/
def c7ArchiveEntries : List Str :=
  [ str ("META-INF/container.xml"), str ("OEBPS/content.opf"),
    str ("OEBPS/toc.ncx") ]

/-! ## Concrete inputs for the anchor-extraction claims -/

/-- C1 counterexample document: the literal text `id="A"` occurs inside a
text node before the element that actually carries the anchor `A`. -/
def c1Doc : Str := str ("<p>id=\"A\"</p><div id=\"A\">hi</div><p id=\"B\">y</p>")

/-- The tree `html.Parse` produces for `c1Doc` (document/html/head/body
wrapper, then the three body children). -/
def c1Tree : HtmlNode :=
  HtmlNode.node HtmlNodeType.documentNode [] []
    [ HtmlNode.node HtmlNodeType.elementNode (str ("html")) []
        [ HtmlNode.node HtmlNodeType.elementNode (str ("head")) [] [],
          HtmlNode.node HtmlNodeType.elementNode (str ("body")) []
            [ HtmlNode.node HtmlNodeType.elementNode (str ("p")) []
                [ HtmlNode.node HtmlNodeType.textNode (str ("id=\"A\"")) [] [] ],
              HtmlNode.node HtmlNodeType.elementNode (str ("div"))
                [ { key := str ("id"), val := str ("A") } ]
                [ HtmlNode.node HtmlNodeType.textNode (str ("hi")) [] [] ],
              HtmlNode.node HtmlNodeType.elementNode (str ("p"))
                [ { key := str ("id"), val := str ("B") } ]
                [ HtmlNode.node HtmlNodeType.textNode (str ("y")) [] [] ] ] ] ]

/-- `html.Parse` oracle for the C1 inputs (the fast string-scan path
succeeds on them, so the parse result is never consulted). -/
def c1Parse : Str → HtmlNode := fun _ => c1Tree

/-- `html.Render` oracle for the C1 inputs (never consulted: the fast
string-scan path succeeds). -/
def c1Render : HtmlNode → Str := fun _ => []

/-- Witness document for the amended C1: `id="A"` first occurs inside A's
own tag. -/
def c1WDoc : Str := str ("<a>t</a><div id=\"A\">hi</div><p id=\"B\">y</p>")

/-- C5 witness document: contains no anchor patterns at all. -/
def c5Doc : Str := str ("<p>hello</p>")

/-- The tree `html.Parse` produces for `c5Doc`. -/
def c5Tree : HtmlNode :=
  HtmlNode.node HtmlNodeType.documentNode [] []
    [ HtmlNode.node HtmlNodeType.elementNode (str ("html")) []
        [ HtmlNode.node HtmlNodeType.elementNode (str ("head")) [] [],
          HtmlNode.node HtmlNodeType.elementNode (str ("body")) []
            [ HtmlNode.node HtmlNodeType.elementNode (str ("p")) []
                [ HtmlNode.node HtmlNodeType.textNode (str ("hello")) [] [] ] ] ] ]

/-- `html.Parse` oracle for the C5 witness. -/
def c5Parse : Str → HtmlNode := fun _ => c5Tree

/-! ## pkg/parser/code.go: code tokenizer and colorizer

`tokenizeCode` embeds the Go regexp
`("[^"]*")|('[^']*')|(`...`)|(//.*)|(#.*)|(--.*)|([\d.]+)|([a-zA-Z_]\w*)|(\S)|\s+`
under `FindAllStringIndex`: Go's regexp engine uses leftmost-first
(Perl-style) alternation, and since the last two alternatives cover every
character, the matches tile the string — equivalent to the sequential
scanner below, which tries the alternatives in the same priority order at
each position. -/

/-- The backtick character (code point 96). -/
def btChar : Char := Char.ofNat 96

/-- Character class `[\d.]` of the numeric-literal alternative. -/
def isDigitDot (c : Char) : Bool := c.isDigit || c = ('.')

/-- Character class `[a-zA-Z_]` starting an identifier. -/
def isWordStart (c : Char) : Bool :=
  (('a') ≤ c ∧ c ≤ ('z')) ∨ (('A') ≤ c ∧ c ≤ ('Z')) ∨ c = ('_')

/-- Character class `\w`. -/
def isWordChar (c : Char) : Bool := isWordStart c || c.isDigit

/-- Go regexp `\s` (`[\t\n\f\r ]`). -/
def reSpace (c : Char) : Bool :=
  c = (' ') ∨ c = ('\t') ∨ c = ('\n') ∨ c = (Char.ofNat 12) ∨ c = ('\r')

/-- Not a newline (regexp `.`). -/
def notNl (c : Char) : Bool := ¬ c = ('\n')

/-- A quoted alternative `q[^q]*q`: succeeds when a closing quote exists. -/
def quotedTok (q : Char) (rest : Str) : Option (Str × Str) :=
  match rest.dropWhile (fun x => ¬ x = q) with
  | [] => none
  | _ :: rem2 => some (q :: (rest.takeWhile (fun x => ¬ x = q)) ++ [q], rem2)

/-- One token of `tokenizeCode`'s combined regexp at the current position
(the alternatives in their priority order). -/
def nextTok (c : Char) (rest : Str) : Str × Str :=
  if c = ('\"') then
    match quotedTok c rest with
    | some t => t
    | none => ([c], rest)
  else if c = ('\'') then
    match quotedTok c rest with
    | some t => t
    | none => ([c], rest)
  else if c = btChar then
    match quotedTok c rest with
    | some t => t
    | none => ([c], rest)
  else if c = ('/') then
    match rest with
    | ('/') :: rest2 =>
      (('/') :: ('/') :: rest2.takeWhile notNl, rest2.dropWhile notNl)
    | _ => ([c], rest)
  else if c = ('#') then
    (('#') :: rest.takeWhile notNl, rest.dropWhile notNl)
  else if c = ('-') then
    match rest with
    | ('-') :: rest2 =>
      (('-') :: ('-') :: rest2.takeWhile notNl, rest2.dropWhile notNl)
    | _ => ([c], rest)
  else if isDigitDot c then
    (c :: rest.takeWhile isDigitDot, rest.dropWhile isDigitDot)
  else if isWordStart c then
    (c :: rest.takeWhile isWordChar, rest.dropWhile isWordChar)
  else if ¬ reSpace c then ([c], rest)
  else (c :: rest.takeWhile reSpace, rest.dropWhile reSpace)

/-- Fuel-driven scan loop of `tokenizeCode`.  Each step consumes at least
one character (`nextTok_rest_le`), so fuel equal to the input length never
runs out: the `0, _ :: _` case is unreachable. -/
def tokenizeCodeAux : Nat → Str → List Str
  | _, [] => []
  | 0, _ :: _ => []
  | Nat.succ fuel, c :: rest =>
    (nextTok c rest).1 :: tokenizeCodeAux fuel (nextTok c rest).2

/-- Embeds `tokenizeCode` (code.go): the token list of the combined scan. -/
def tokenizeCode (code : Str) : List Str := tokenizeCodeAux code.length code

/-- Embeds `isDataType` (code.go): the data-type keyword set. -/
def isDataType (token : Str) : Bool :=
  (List.map str
    ["int", "float", "double", "char", "string",
     "bool", "boolean", "byte", "long", "short",
     "void", "var", "let", "const", "auto",
     "static", "final", "unsigned", "signed", "uint",
     "int8", "int16", "int32", "int64", "uint8",
     "uint16", "uint32", "uint64", "float32", "float64",
     "object", "array", "map", "set", "list",
     "vector", "dict", "tuple", "struct", "class",
     "interface", "enum", "union", "type"]).contains token

/-- Embeds `isControlFlow` (code.go): the control-flow keyword set. -/
def isControlFlow (token : Str) : Bool :=
  (List.map str
    ["if", "else", "elif", "switch", "case",
     "default", "for", "while", "do", "foreach",
     "in", "of", "break", "continue", "return",
     "yield", "goto", "try", "catch", "except",
     "finally", "throw", "throws", "raise"]).contains token

/-- Embeds `isOtherKeyword` (code.go): the remaining keyword set. -/
def isOtherKeyword (token : Str) : Bool :=
  (List.map str
    ["function", "func", "def", "fn", "method",
     "import", "include", "require", "from", "export",
     "package", "namespace", "module", "using", "extends",
     "implements", "override", "virtual", "abstract",
     "public", "private", "protected", "internal",
     "async", "await", "new", "delete", "this",
     "self", "super", "base", "null", "nil",
     "None", "true", "false", "True", "False",
     "and", "or", "not", "instanceof", "typeof",
     "sizeof", "lambda"]).contains token

/-- Go `strings.ToUpper` on ASCII. -/
def strToUpper (s : Str) : Str := s.map Char.toUpper

/-- Embeds `isSQLKeyword` (code.go): case-insensitive SQL keyword set. -/
def isSQLKeyword (token : Str) : Bool :=
  (List.map str
    ["SELECT", "INSERT", "UPDATE", "DELETE", "CREATE",
     "ALTER", "DROP", "TRUNCATE", "GRANT", "REVOKE",
     "COMMIT", "ROLLBACK", "SAVEPOINT", "SET",
     "FROM", "WHERE", "GROUP", "HAVING", "ORDER",
     "BY", "LIMIT", "OFFSET", "JOIN", "INNER",
     "OUTER", "LEFT", "RIGHT", "FULL", "ON",
     "AS", "UNION", "ALL", "INTO", "VALUES",
     "DISTINCT", "CASE", "WHEN", "THEN", "ELSE",
     "END", "WITH", "RECURSIVE",
     "COUNT", "SUM", "AVG", "MIN", "MAX",
     "COALESCE", "NULLIF", "CAST", "CONVERT",
     "CURRENT_DATE", "CURRENT_TIME", "CURRENT_TIMESTAMP",
     "EXTRACT", "SUBSTRING", "CONCAT", "TRIM",
     "UPPER", "LOWER", "LENGTH", "ROUND",
     "INT", "INTEGER", "SMALLINT", "BIGINT",
     "DECIMAL", "NUMERIC", "FLOAT", "REAL",
     "DOUBLE", "PRECISION", "CHAR", "VARCHAR",
     "TEXT", "DATE", "TIME", "TIMESTAMP",
     "BOOLEAN", "BLOB", "CLOB", "BINARY",
     "PRIMARY", "KEY", "FOREIGN", "UNIQUE",
     "NOT", "NULL", "CHECK", "DEFAULT",
     "AUTO_INCREMENT", "IDENTITY", "REFERENCES",
     "CASCADE", "RESTRICT", "NO", "ACTION",
     "AND", "OR", "IN", "BETWEEN",
     "LIKE", "IS", "EXISTS", "ANY", "SOME",
     "INTERSECT", "EXCEPT", "MINUS",
     "BEGIN", "TRANSACTION", "ISOLATION", "LEVEL", "READ",
     "WRITE", "UNCOMMITTED", "COMMITTED", "REPEATABLE",
     "SERIALIZABLE",
     "TABLE", "VIEW", "INDEX", "SEQUENCE",
     "TRIGGER", "PROCEDURE", "FUNCTION", "SCHEMA",
     "DATABASE", "COLUMN", "CONSTRAINT",
     "IF", "WHILE", "LOOP",
     "FOR", "RETURN", "DECLARE", "EXCEPTION",
     "RAISE", "HANDLER", "CONDITION", "SIGNAL",
     "RESIGNAL", "CALL", "EXECUTE", "PREPARE",
     "DEALLOCATE", "ELSEIF"]).contains (strToUpper token)

/-- The numeric-literal pattern of `colorizeToken` (`^\d+(\.\d+)?$`). -/
def isNumericToken (t : Str) : Bool :=
  let intPart := t.takeWhile Char.isDigit
  let rest := t.dropWhile Char.isDigit
  (!intPart.isEmpty) &&
    (rest.isEmpty ||
      (match rest with
       | ('.') :: fr => (!fr.isEmpty) && fr.all Char.isDigit
       | _ => false))

/-- One tview color wrapper `[color]token[-]`. -/
def wrapColor (color token : Str) : Str := color ++ token ++ str ("[-]")

/-- Embeds `colorizeToken` (code.go, the SQL-aware variant): classify and
wrap one token. -/
def colorizeToken (token : Str) : Str :=
  if ((str ("\"")).isPrefixOf token ∧ (str ("\"")).isSuffixOf token) ∨
     ((str ("'")).isPrefixOf token ∧ (str ("'")).isSuffixOf token) ∨
     (([btChar]).isPrefixOf token ∧ ([btChar]).isSuffixOf token) then
    wrapColor (str ("[#FFFF00]")) token
  else if (str ("//")).isPrefixOf token ∨ (str ("#")).isPrefixOf token ∨
      (str ("--")).isPrefixOf token then
    wrapColor (str ("[#00FF00]")) token
  else if isNumericToken token then
    wrapColor (str ("[#FF8800]")) token
  else if isSQLKeyword token then
    wrapColor (str ("[#FF00AA]")) token
  else if isDataType token then
    wrapColor (str ("[#00FFFF]")) token
  else if isControlFlow token then
    wrapColor (str ("[#FF00FF]")) token
  else if isOtherKeyword token then
    wrapColor (str ("[#0088FF]")) token
  else token

/-- Embeds `highlightUniversal` (code.go): colorize each token and
concatenate. -/
def highlightUniversal (code : Str) : Str :=
  ((tokenizeCode code).map colorizeToken).flatten

/-- Embeds `applyCodeHighlighting` (code.go). -/
def applyCodeHighlighting (code : Str) : Str := highlightUniversal code

/-- The C8 code line. -/
def c8Line : Str := str ("\"hello\" // note 42")

/-! ## pkg/parser/html_parser.go and tag.go: the HTML renderer

Embeds the `HTMLParser` struct, its tag handlers, text handling and the
`FormatLines` word-wrap formatter.  `html.UnescapeString` enters as the
oracle parameter `unescape`; widths are embedded as `Nat` (the Go `int`
comparisons `x+1 <= width-k` behave identically for all non-positive
limits, which Nat subtraction clamps to 0). -/

/-- Embeds `strings.Fields` (split around whitespace runs). -/
def fieldsAux : Option Str → Str → List Str
  | none, [] => []
  | some w, [] => [w.reverse]
  | none, c :: t =>
    if goIsSpace c then fieldsAux none t else fieldsAux (some [c]) t
  | some w, c :: t =>
    if goIsSpace c then w.reverse :: fieldsAux none t
    else fieldsAux (some (c :: w)) t

/-- Embeds `strings.Fields`. -/
def goFields (s : Str) : List Str := fieldsAux none s

/-- Embeds `strings.Split(s, "\n")`. -/
def splitOnNlAux : Str → Str → List Str
  | cur, [] => [cur.reverse]
  | cur, c :: t =>
    if c = ('\n') then cur.reverse :: splitOnNlAux [] t
    else splitOnNlAux (c :: cur) t

/-- Embeds `strings.Split(s, "\n")`. -/
def splitOnNl (s : Str) : List Str := splitOnNlAux [] s

/-- Embeds `strings.Join(lines, "\n")`. -/
def joinNl : List Str → Str
  | [] => []
  | [l] => l
  | l :: ls => l ++ ('\n') :: joinNl ls

/-- Embeds the `\s+` → " " regexp replacement of `handleText`. -/
def collapseWsAux : Bool → Str → Str
  | _, [] => []
  | prevSpace, c :: t =>
    if reSpace c then
      if prevSpace then collapseWsAux true t
      else (' ') :: collapseWsAux true t
    else c :: collapseWsAux false t

/-- Embeds the `\s+` → " " regexp replacement of `handleText`. -/
def collapseWs (s : Str) : Str := collapseWsAux false s

/-- One step of the greedy word-packer loop shared by the `format*Line`
helpers (accumulate while `len(current)+len(word)+1 <= limit`, else
flush). -/
def greedyStep (width : Nat) (acc : List Str × Str) (word : Str) :
    List Str × Str :=
  if acc.2.length + word.length + 1 ≤ width then
    if acc.2 = [] then (acc.1, word)
    else (acc.1, acc.2 ++ (' ') :: word)
  else (acc.1 ++ [acc.2], word)

/-- The greedy word-packer loop: returns the flushed lines and the final
accumulator line. -/
def greedyWrap (words : List Str) (width : Nat) : List Str × Str :=
  words.foldl (greedyStep width) ([], [])

/-- Embeds `formatWrappedLine` (html_parser.go). -/
def formatWrappedLine (line : Str) (width : Nat) : List Str :=
  if line = [] then [[]]
  else
    let r := greedyWrap (goFields line) width
    if ¬ r.2 = [] then r.1 ++ [r.2] else r.1

/-- Embeds `formatIndentedLine` (html_parser.go): wrapped lines each get
the indent prefix, joined with newlines into one string. -/
def formatIndentedLine (line : Str) (width : Nat) (indent : Str) : Str :=
  if line = [] then []
  else
    let r := greedyWrap (goFields line) width
    joinNl ((r.1 ++ (if ¬ r.2 = [] then [r.2] else [])).map
      (fun l => indent ++ l))

/-- Embeds `formatBulletLine` (html_parser.go): `" - "` on the first
wrapped line, `"   "` on continuations. -/
def formatBulletLine (line : Str) (width : Nat) : Str :=
  if line = [] then []
  else
    match goFields line with
    | [] => []
    | w :: ws =>
      let r := ws.foldl (fun (acc : List Str × Str) word =>
        if acc.2.length + word.length + 1 ≤ width then
          (acc.1, acc.2 ++ (' ') :: word)
        else (acc.1 ++ [acc.2], str ("   ") ++ word))
        ([], str (" - ") ++ w)
      joinNl (r.1 ++ (if ¬ r.2 = [] then [r.2] else []))

/-- Embeds `formatPreformattedLine` (html_parser.go): embedded newlines are
hard breaks; each sub-line is word-wrapped with the indent prefix. -/
def formatPreformattedLine (line : Str) (width : Nat) (indent : Str) : Str :=
  if line = [] then []
  else
    let results := (splitOnNl line).flatMap (fun l =>
      let r := greedyWrap (goFields l) width
      r.1 ++ (if ¬ r.2 = [] then [r.2] else []))
    joinNl (results.map (fun l => indent ++ l))

/-- Embeds `stripColorCodes` (html_parser.go): drop `[...]` color runs. -/
def stripColorCodes : Str → Str
  | [] => []
  | c :: t =>
    if c = ('[') ∧ t.any (fun x => x = (']')) then
      stripColorCodes ((t.dropWhile (fun x => ¬ x = (']'))).drop 1)
    else c :: stripColorCodes t
termination_by s => s.length
decreasing_by
  · have h1 := (List.dropWhile_sublist (fun x => ¬ x = (']'))
      (l := t)).length_le
    have h2 := List.length_drop 1 (t.dropWhile (fun x => ¬ x = (']')))
    simp only [List.length_cons]
    omega
  · simp only [List.length_cons]
    omega

/-- Embeds `colorizeToken` of html_parser.go (the variant without the SQL
keyword class; the same-named function in code.go adds SQL). -/
def colorizeTokenHtml (token : Str) : Str :=
  if ((str ("\"")).isPrefixOf token ∧ (str ("\"")).isSuffixOf token) ∨
     ((str ("'")).isPrefixOf token ∧ (str ("'")).isSuffixOf token) ∨
     (([btChar]).isPrefixOf token ∧ ([btChar]).isSuffixOf token) then
    wrapColor (str ("[#FFFF00]")) token
  else if (str ("//")).isPrefixOf token ∨ (str ("#")).isPrefixOf token ∨
      (str ("--")).isPrefixOf token then
    wrapColor (str ("[#00FF00]")) token
  else if isNumericToken token then
    wrapColor (str ("[#FF8800]")) token
  else if isDataType token then
    wrapColor (str ("[#00FFFF]")) token
  else if isControlFlow token then
    wrapColor (str ("[#FF00FF]")) token
  else if isOtherKeyword token then
    wrapColor (str ("[#0088FF]")) token
  else token

/-- Embeds `highlightUniversal` of html_parser.go. -/
def highlightUniversalHtml (code : Str) : Str :=
  ((tokenizeCode code).map colorizeTokenHtml).flatten

/-- Embeds `applyCodeHighlighting` of html_parser.go (ignores the declared
code type). -/
def applyCodeHighlightingHtml (code : Str) (_codeType : Str) : Str :=
  highlightUniversalHtml code

/-- Embeds `formatCodeLine` of html_parser.go: highlight, split on
newlines, indent each line (both width branches are identical in the
source). -/
def formatCodeLine (line : Str) (width : Nat) (indent : Str)
    (codeType : Str) : Str :=
  if line = [] then []
  else
    joinNl ((splitOnNl (applyCodeHighlightingHtml line codeType)).map
      (fun l =>
        if (stripColorCodes l).length ≤ width then indent ++ l
        else indent ++ l))

/-- Embeds the `HTMLParser` struct (html_parser.go).  The `map[int]bool`
line-role sets become lists of marked indices. -/
structure HTMLParser where
  text : List Str
  images : List Str
  isHead : Bool
  isInde : Bool
  isBull : Bool
  isPref : Bool
  isCode : Bool
  codeType : Str
  isHidden : Bool
  headIDs : List Nat
  indeIDs : List Nat
  bullIDs : List Nat
  prefIDs : List Nat
  codeIDs : List Nat
  currentTag : Str
  buffer : Str
deriving Repr

/-- Embeds `NewHTMLParser` (html_parser.go): one empty line, all flags
clear. -/
def NewHTMLParser : HTMLParser :=
  { text := [[]], images := [], isHead := false, isInde := false,
    isBull := false, isPref := false, isCode := false, codeType := [],
    isHidden := false, headIDs := [], indeIDs := [], bullIDs := [],
    prefIDs := [], codeIDs := [], currentTag := [], buffer := [] }

/-- The `^h[1-6]$` regexp of the tag handlers. -/
def isHeadingTag (tag : Str) : Bool :=
  match tag with
  | [c1, c2] => c1 = ('h') ∧ ('1') ≤ c2 ∧ c2 ≤ ('6')
  | _ => false

/-- The `(?:language|lang)-(\w+)` regexp at one position. -/
def langMatchAt (s : Str) : Option Str :=
  if (str ("language-")).isPrefixOf s then
    let w := (s.drop 9).takeWhile isWordChar
    if ¬ w = [] then some w else none
  else if (str ("lang-")).isPrefixOf s then
    let w := (s.drop 5).takeWhile isWordChar
    if ¬ w = [] then some w else none
  else none

/-- The `(?:language|lang)-(\w+)` regexp: first match in the string. -/
def findLangMatch : Str → Option Str
  | [] => none
  | c :: t =>
    match langMatchAt (c :: t) with
    | some w => some w
    | none => findLangMatch t

/-- The class-attribute scan of the `pre`/`code` cases of
`handleStartTag` (html_parser.go): the last matching class wins. -/
def classCodeType (attrs : List HtmlAttr) (current : Str) : Str :=
  attrs.foldl (fun ct attr =>
    if attr.key = str ("class") then
      match findLangMatch attr.val with
      | some w => w
      | none => ct
    else ct) current

/-- The attribute scan of the `img`/`image` case of `handleStartTag`:
src from `src` (or a `*href` key for `image`), alt from `alt`; later
attributes overwrite earlier ones. -/
def findSrcAlt (tag : Str) (attrs : List HtmlAttr) : Str × Str :=
  attrs.foldl (fun (sa : Str × Str) attr =>
    if (tag = str ("img") ∧ attr.key = str ("src")) ∨
       (tag = str ("image") ∧ (str ("href")).isSuffixOf attr.key) then
      (attr.val, sa.2)
    else if attr.key = str ("alt") then (sa.1, attr.val)
    else sa) ([], [])

/-- Decimal rendering of `fmt.Sprintf("%d", n)`. -/
def natToStr (n : Nat) : Str := (toString n).toList

/-- The `[IMG:i]` / `[IMG:i - alt]` placeholder of `handleStartTag`. -/
def imgPlaceholder (idx : Nat) (alt : Str) : Str :=
  if ¬ alt = [] then
    str ("[IMG:") ++ natToStr idx ++ str (" - ") ++ alt ++ str ("]")
  else str ("[IMG:") ++ natToStr idx ++ str ("]")

/-- Embeds `handleStartTag` (html_parser.go; tag.go differs only in not
tracking `codeType`). -/
def handleStartTag (unescape : Str → Str) (p : HTMLParser) (n : HtmlNode) :
    HTMLParser :=
  let tag := n.data
  let p := { p with currentTag := tag }
  if isHeadingTag tag then { p with isHead := true }
  else if tag = str ("q") ∨ tag = str ("dt") ∨ tag = str ("dd") ∨
      tag = str ("blockquote") then { p with isInde := true }
  else if tag = str ("pre") then
    { p with isPref := true, isCode := true,
             codeType := classCodeType n.attr p.codeType }
  else if tag = str ("code") then
    if p.isPref then
      { p with isCode := true, codeType := classCodeType n.attr p.codeType }
    else p
  else if tag = str ("li") then { p with isBull := true }
  else if tag = str ("script") ∨ tag = str ("style") ∨
      tag = str ("head") then { p with isHidden := true }
  else if tag = str ("sup") then { p with buffer := p.buffer ++ str ("^\x7b") }
  else if tag = str ("sub") then { p with buffer := p.buffer ++ str ("_\x7b") }
  else if tag = str ("img") ∨ tag = str ("image") then
    let sa := findSrcAlt tag n.attr
    if ¬ sa.1 = [] then
      { p with text := p.text ++ [imgPlaceholder p.images.length sa.2],
               images := p.images ++ [unescape sa.1] }
    else p
  else if tag = str ("br") then { p with text := p.text ++ [[]] }
  else p

/-- Appending a blank line only when the current last line is non-empty
(the shared pattern of several `handleEndTag` cases). -/
def appendBlankIfNeeded (lines : List Str) : List Str :=
  if ¬ (lines.getLastD []) = [] then lines ++ [[]] else lines

/-- Embeds `handleEndTag` (html_parser.go). -/
def handleEndTag (p : HTMLParser) (n : HtmlNode) : HTMLParser :=
  let tag := n.data
  let p' :=
    if isHeadingTag tag then
      { p with text := p.text ++ [[], []], isHead := false }
    else if tag = str ("p") ∨ tag = str ("div") then
      { p with text := p.text ++ [[]] }
    else if tag = str ("script") ∨ tag = str ("style") ∨
        tag = str ("head") then { p with isHidden := false }
    else if tag = str ("q") ∨ tag = str ("dt") ∨ tag = str ("dd") ∨
        tag = str ("blockquote") then
      { p with text := appendBlankIfNeeded p.text, isInde := false }
    else if tag = str ("pre") then
      { p with text := appendBlankIfNeeded p.text, isPref := false,
               isCode := false, codeType := [] }
    else if tag = str ("code") then
      if p.isPref ∧ p.isCode then { p with isCode := false } else p
    else if tag = str ("li") then
      { p with text := appendBlankIfNeeded p.text, isBull := false }
    else if tag = str ("sub") ∨ tag = str ("sup") then
      { p with buffer := p.buffer ++ str ("\x7d") }
    else if tag = str ("img") ∨ tag = str ("image") then
      { p with text := p.text ++ [[]] }
    else p
  { p' with currentTag := [] }

/-- Appending the flushed buffer to the last line. -/
def appendToLast (lines : List Str) (sfx : Str) : List Str :=
  lines.dropLast ++ [(lines.getLastD []) ++ sfx]

/-- The body of `handleText` after the leading-space adjustment of `data`
(html_parser.go): extend the buffer and flush it into the last line. -/
def handleTextCore (unescape : Str → Str) (p : HTMLParser) (data1 : Str) :
    HTMLParser :=
    let p1 :=
      if p.isPref then { p with buffer := p.buffer ++ unescape data1 }
      else { p with buffer := p.buffer ++ unescape (collapseWs data1) }
    if ¬ p1.buffer = [] then
      let lineIndex := p1.text.length - 1
      let p2 := { p1 with text := appendToLast p1.text p1.buffer,
                          buffer := [] }
      if p2.isHead then { p2 with headIDs := p2.headIDs ++ [lineIndex] }
      else if p2.isBull then { p2 with bullIDs := p2.bullIDs ++ [lineIndex] }
      else if p2.isInde then { p2 with indeIDs := p2.indeIDs ++ [lineIndex] }
      else if p2.isPref then
        if p2.isCode then
          { p2 with prefIDs := p2.prefIDs ++ [lineIndex],
                    codeIDs := p2.codeIDs ++ [lineIndex] }
        else { p2 with prefIDs := p2.prefIDs ++ [lineIndex] }
      else p2
    else p1

/-- Embeds `handleText` (html_parser.go). -/
def handleText (unescape : Str → Str) (p : HTMLParser) (data : Str) :
    HTMLParser :=
  if data = [] ∨ p.isHidden then p
  else
    handleTextCore unescape p
      (if (p.text.getLastD []) = [] then data.dropWhile goIsSpace else data)

mutual

/-- Embeds `parseNode` (html_parser.go): start handler, children, end
handler. -/
def parseNode (unescape : Str → Str) (p : HTMLParser) : HtmlNode → HTMLParser
  | HtmlNode.node t d a c =>
    let n := HtmlNode.node t d a c
    let p1 :=
      if t = HtmlNodeType.elementNode then handleStartTag unescape p n
      else if t = HtmlNodeType.textNode then handleText unescape p d
      else p
    let p2 := parseNodeList unescape p1 c
    if t = HtmlNodeType.elementNode then handleEndTag p2 n else p2

/-- The child loop of `parseNode`. -/
def parseNodeList (unescape : Str → Str) (p : HTMLParser) :
    List HtmlNode → HTMLParser
  | [] => p
  | n :: ns => parseNodeList unescape (parseNode unescape p n) ns

end

/-- Embeds `(p *HTMLParser) Parse` (html_parser.go): parse the document
(via the `html.Parse` oracle) and walk it. -/
def HTMLParser.Parse (unescape : Str → Str) (parse : Str → HtmlNode)
    (p : HTMLParser) (content : Str) : HTMLParser :=
  parseNode unescape p (parse content)

/-- Embeds `GetLines`. -/
def HTMLParser.GetLines (p : HTMLParser) : List Str := p.text

/-- Embeds `GetImages`. -/
def HTMLParser.GetImages (p : HTMLParser) : List Str := p.images

/-- Embeds `FormatLines` (html_parser.go).  A width of 0 embeds Go's
`width <= 0`. -/
def HTMLParser.FormatLines (p : HTMLParser) (width : Nat) : List Str :=
  if width = 0 then p.text
  else
    p.text.enum.foldl (fun acc il =>
      let i := il.1
      let line := il.2
      if p.headIDs.contains i then
        let padding := width / 2 - line.length / 2
        acc ++ [List.replicate padding (' ') ++ line, []]
      else if p.indeIDs.contains i then
        acc ++ [formatIndentedLine line (width - 3) (str ("   ")), []]
      else if p.bullIDs.contains i then
        acc ++ [formatBulletLine line (width - 3), []]
      else if p.prefIDs.contains i then
        if p.codeIDs.contains i then
          acc ++ [formatCodeLine line (width - 6) (str ("   ")) p.codeType, []]
        else
          acc ++ [formatPreformattedLine line (width - 6) (str ("   ")), []]
      else
        acc ++ formatWrappedLine line width ++ [[]]) []

/-- A parser state holding only plain lines (no role marks): what
re-feeding formatter output into the formatter produces. -/
def mkPlainParser (lines : List Str) : HTMLParser :=
  { NewHTMLParser with text := lines }

/-- Single-space join of a word list (the value the greedy packer produces
when everything fits on one line). -/
def joinSp : List Str → Str
  | [] => []
  | [w] => w
  | w :: ws => w ++ (' ') :: joinSp ws

/-! ### Image-placeholder invariant (claim C10) -/

/-- No `[` character (placeholder lines are recognized by their `[IMG:`
prefix, so bracket-free content can never masquerade as one). -/
def noBracket (s : Str) : Bool := !(s.any (fun c => c = ('[')))

/-- A line produced by the image handler: starts with `[IMG:`. -/
def isPH (l : Str) : Bool := (str ("[IMG:")).isPrefixOf l

/-- The placeholder lines of a text buffer, in document order. -/
def placeholderLines (lines : List Str) : List Str := lines.filter isPH

/-- The line carries embedded image index `k` (`[IMG:k]` or
`[IMG:k - alt]`). -/
def phIndexOk (k : Nat) (l : Str) : Bool :=
  l = str ("[IMG:") ++ natToStr k ++ str ("]") ∨
  (str ("[IMG:") ++ natToStr k ++ str (" - ")).isPrefixOf l

mutual

/-- Well-formedness of a parsed tree for the C10 claim: text data decodes
bracket-free (under each of the four decode shapes `handleText` uses), and
the void image elements have no children (as `html.Parse` guarantees). -/
def nodeOk (unescape : Str → Str) : HtmlNode → Bool
  | HtmlNode.node t d _ c =>
    (if t = HtmlNodeType.textNode then
      noBracket (unescape d) && noBracket (unescape (collapseWs d)) &&
      noBracket (unescape (d.dropWhile goIsSpace)) &&
      noBracket (unescape (collapseWs (d.dropWhile goIsSpace)))
     else true) &&
    (if t = HtmlNodeType.elementNode ∧
        (d = str ("img") ∨ d = str ("image")) then c.isEmpty else true) &&
    listOk unescape c

/-- List form of `nodeOk`. -/
def listOk (unescape : Str → Str) : List HtmlNode → Bool
  | [] => true
  | n :: ns => nodeOk unescape n && listOk unescape ns

end

/-- The parser-state invariant maintained by the renderer: the placeholder
lines match the image list one-to-one with indices 0..n-1 in order, and the
current last line and pending buffer are bracket-free. -/
def ImgInv (p : HTMLParser) : Prop :=
  (placeholderLines p.text).length = p.images.length ∧
  (∀ k (hk : k < (placeholderLines p.text).length),
    phIndexOk k ((placeholderLines p.text).get ⟨k, hk⟩) = true) ∧
  noBracket (p.text.getLastD []) = true ∧
  noBracket p.buffer = true ∧
  ¬ p.text = []

/-- A concrete two-image document for exercising the placeholder claim. -/
def C10doc : HtmlNode :=
  HtmlNode.node HtmlNodeType.documentNode [] []
    [HtmlNode.node HtmlNodeType.elementNode (str ("body")) []
      [HtmlNode.node HtmlNodeType.elementNode (str ("img"))
         [⟨str ("src"), str ("a.png")⟩, ⟨str ("alt"), str ("pic")⟩] [],
       HtmlNode.node HtmlNodeType.textNode (str ("hello world")) [] [],
       HtmlNode.node HtmlNodeType.elementNode (str ("img"))
         [⟨str ("src"), str ("b.png")⟩] []]]

/-! ### The TOC builder (pkg/epub/epub.go generateTOC and
processNestedNavPoints, with the utils.DList of unnamed/part_004;
claims C2 and C4) -/

/-- `TOCValue` of pkg/epub. -/
structure TOCValue where
  id : Str
  parentID : Str
  title : Str
  path : Str
  fragment : Str
  level : Nat
  isDir : Bool
deriving Repr, DecidableEq

/-- `DItem[TOCValue]` of utils: pointers become `Option Nat` addresses
into an explicit heap. -/
structure TOCDItem where
  value : TOCValue
  prev : Option Nat
  next : Option Nat
deriving Repr, DecidableEq

/-- `DList[TOCValue]` of utils: the heap makes the pointer graph
explicit; addresses are allocation indices. -/
structure TOCDList where
  heap : List TOCDItem
  head : Option Nat
  slice : List TOCValue
deriving Repr, DecidableEq

/-- `NewDList` of utils. -/
def NewDList : TOCDList := ⟨[], none, []⟩

/-- Embeds `DList.Add` (unnamed/part_004): with `prev == nil` the new
item becomes the head, the value is appended to `Slice`, and the fresh
head's `Next` (still nil) is returned; with `prev != nil` the item is
linked after `prev` — without touching `Slice` — and its address is
returned. -/
def DListAdd (l : TOCDList) (value : TOCValue) (prev : Option Nat) :
    TOCDList × Option Nat :=
  match prev with
  | none =>
    let itm : TOCDItem := ⟨value, none, none⟩
    ({ heap := l.heap ++ [itm], head := some l.heap.length,
       slice := l.slice ++ [value] }, itm.next)
  | some a =>
    let addr := l.heap.length
    let itm : TOCDItem := ⟨value, some a, none⟩
    let heap1 := l.heap ++ [itm]
    let old := heap1.getD a itm
    ({ heap := heap1.set a ⟨old.value, old.prev, some addr⟩,
       head := l.head, slice := l.slice }, some addr)

/-- `DList.Len` of utils. -/
def DListLen (l : TOCDList) : Nat := l.slice.length

/-- `NavPoint` of pkg/epub (label text, content src, nested points). -/
inductive NavPoint where
  | mk : Str → Str → List NavPoint → NavPoint

/-- The label of a navigation point. -/
def NavPoint.label : NavPoint → Str
  | NavPoint.mk l _ _ => l

/-- The content src of a navigation point. -/
def NavPoint.src : NavPoint → Str
  | NavPoint.mk _ s _ => s

/-- The nested navigation points. -/
def NavPoint.children : NavPoint → List NavPoint
  | NavPoint.mk _ _ c => c

/-- `NavLink` of pkg/epub (EPUB 3 navigation document entry). -/
structure NavLink where
  href : Str
  text : Str
deriving Repr, DecidableEq

/-- Embeds `splitPathAndFragment` (pkg/epub): `strings.SplitN(path, "#",
2)` — the prefix before the first `#` and the remainder after it. -/
def splitPathAndFragment (path : Str) : Str × Str :=
  let pre := path.takeWhile (fun c => ¬ c = ('#'))
  match path.dropWhile (fun c => ¬ c = ('#')) with
  | [] => (pre, [])
  | _ :: t => (pre, t)

mutual

/-- Embeds `processNestedNavPoints` (pkg/epub).  `uuid.New().String()`
enters as the oracle stream `uuidGen` sampled at a running counter, which
is threaded through and returned alongside the list state and the
returned node pointer. -/
def processNestedNavPoints (uuidGen : Nat → Str) :
    NavPoint → TOCDList → Nat → Option Nat → Nat → Str →
    TOCDList × Nat × Option Nat
  | NavPoint.mk label src children, l, ctr, prev, level, parentID =>
    let pf := splitPathAndFragment src
    let newItem : TOCValue :=
      { id := uuidGen ctr, parentID := parentID, title := label,
        path := pf.1, fragment := pf.2, level := level,
        isDir := decide (0 < children.length) }
    let r := DListAdd l newItem prev
    processNavChildren uuidGen children r.1 (ctr + 1) r.2 (level + 1)
      newItem.id

/-- The child loop of `processNestedNavPoints`: `newNode` is rebound to
each recursive result. -/
def processNavChildren (uuidGen : Nat → Str) :
    List NavPoint → TOCDList → Nat → Option Nat → Nat → Str →
    TOCDList × Nat × Option Nat
  | [], l, ctr, node, _, _ => (l, ctr, node)
  | c :: cs, l, ctr, node, lvl, pid =>
    let r := processNestedNavPoints uuidGen c l ctr node lvl pid
    processNavChildren uuidGen cs r.1 r.2.1 r.2.2 lvl pid

end

/-- The NCX loop of `generateTOC`: each top-level nav point is processed
at level 0 with a freshly drawn uuid as its `parentID` (drawn before the
recursive call draws the node's own id). -/
def genTOCLoop (uuidGen : Nat → Str) :
    List NavPoint → TOCDList → Nat → Option Nat →
    TOCDList × Nat × Option Nat
  | [], l, ctr, prev => (l, ctr, prev)
  | pt :: pts, l, ctr, prev =>
    let pid := uuidGen ctr
    let r := processNestedNavPoints uuidGen pt l (ctr + 1) prev 0 pid
    genTOCLoop uuidGen pts r.1 r.2.1 r.2.2

/-- Embeds the NCX branch of `generateTOC` (pkg/epub): fresh list, then
the nav-point loop. -/
def generateTOC_ncx (uuidGen : Nat → Str) (navPoints : List NavPoint) :
    TOCDList :=
  (genTOCLoop uuidGen navPoints NewDList 0 none).1

/-- The nav-link loop of the EPUB 3 branch of `generateTOC`: the struct
literal carries no `ID` field, so every id is the zero value. -/
def genNavLoop : List NavLink → TOCDList → Option Nat →
    TOCDList × Option Nat
  | [], l, prev => (l, prev)
  | lk :: lks, l, prev =>
    let pf := splitPathAndFragment lk.href
    let newItem : TOCValue :=
      { id := [], parentID := [], title := lk.text, path := pf.1,
        fragment := pf.2, level := 0, isDir := false }
    let r := DListAdd l newItem prev
    genNavLoop lks r.1 r.2

/-- Embeds the EPUB 3 navigation-document branch of `generateTOC`. -/
def generateTOC_nav (navLinks : List NavLink) : TOCDList :=
  (genNavLoop navLinks NewDList none).1

mutual

/-- The number of nodes a nav-point subtree produces (itself plus all
nested points, recursively). -/
def navCount : NavPoint → Nat
  | NavPoint.mk _ _ cs => 1 + navCountList cs

/-- List version of `navCount`. -/
def navCountList : List NavPoint → Nat
  | [] => 0
  | c :: cs => navCount c + navCountList cs

end

mutual

/-- Specification of the slice block `processNestedNavPoints` appends
when called with a nil `prev`: the node itself (id drawn at `ctr`),
followed by the children blocks at the next level with the parent's id
as `parentID`. -/
def navItems (uuidGen : Nat → Str) :
    Nat → Nat → Str → NavPoint → List TOCValue
  | ctr, level, pid, NavPoint.mk label src cs =>
    let pf := splitPathAndFragment src
    { id := uuidGen ctr, parentID := pid, title := label, path := pf.1,
      fragment := pf.2, level := level,
      isDir := decide (0 < cs.length) } ::
    navItemsList uuidGen (ctr + 1) (level + 1) (uuidGen ctr) cs

/-- List version of `navItems`. -/
def navItemsList (uuidGen : Nat → Str) :
    Nat → Nat → Str → List NavPoint → List TOCValue
  | _, _, _, [] => []
  | ctr, lvl, pid, c :: cs =>
    navItems uuidGen ctr lvl pid c ++
    navItemsList uuidGen (ctr + navCount c) lvl pid cs

end

/-- Specification of the whole NCX slice: per top-level point, one
counter draw for the loop's `parentID` argument then the point's block. -/
def genItems (uuidGen : Nat → Str) : Nat → List NavPoint → List TOCValue
  | _, [] => []
  | ctr, pt :: pts =>
    navItems uuidGen (ctr + 1) 0 (uuidGen ctr) pt ++
    genItems uuidGen (ctr + 1 + navCount pt) pts

/-- The counters at which the NCX slice's node ids are drawn. -/
def genCtrs : Nat → List NavPoint → List Nat
  | _, [] => []
  | ctr, pt :: pts =>
    List.range' (ctr + 1) (navCount pt) ++
    genCtrs (ctr + 1 + navCount pt) pts

/-! ### The virtual-chapter reader (pkg/reader/virtual.go, claim C6) -/

/-- `VirtualContent` of pkg/epub: the physical file and the anchor
fragment of a virtual chapter. -/
structure VirtualContent where
  filePath : Str
  fragment : Str
deriving Repr, DecidableEq

/-- The fields of `Book` that `readVirtualChapter` consults. -/
structure BookSt where
  contents : List Str
  virtualContents : List VirtualContent
  virtualTOCEntries : List Str
deriving Repr

/-- The next-anchor computation of `readVirtualChapter`: the following
virtual chapter's fragment, but only when it lives in the same file. -/
def rvcNextAnchor (book : BookSt) (virtualIndex : Nat) : Str :=
  let vc := book.virtualContents.getD virtualIndex ⟨[], []⟩
  if virtualIndex + 1 < book.virtualContents.length then
    let nvc := book.virtualContents.getD (virtualIndex + 1) ⟨[], []⟩
    if nvc.filePath = vc.filePath then nvc.fragment else []
  else []

/-- The extraction branch of `readVirtualChapter`: on a successful,
non-empty extraction parse the extracted fragment, otherwise parse the
whole file (the embedded `html.Parse` oracle is total, so the inner
reparse-on-error branch of the source collapses).  Returns the parser and
the `extractedContent` value left behind. -/
def rvcParseExtract (unescape : Str → Str) (parse : Str → HtmlNode)
    (fileContent : Str) : Except ExtractErr Str → HTMLParser × Str
  | Except.ok ec =>
    if ¬ ec = [] then (HTMLParser.Parse unescape parse NewHTMLParser ec, ec)
    else (HTMLParser.Parse unescape parse NewHTMLParser fileContent,
      fileContent)
  | Except.error _ =>
    (HTMLParser.Parse unescape parse NewHTMLParser fileContent, fileContent)

/-- The tail of `readVirtualChapter` once the chapter file is read:
extract between anchors, parse, format, and assemble text, status entry
and images. -/
def rvcAfterFile (parse : Str → HtmlNode) (render : HtmlNode → Str)
    (unescape : Str → Str) (book : BookSt) (width : Nat)
    (virtualIndex : Nat) (fileContent : Str) :
    Except Str (Str × Str × List Str) :=
  let vc := book.virtualContents.getD virtualIndex ⟨[], []⟩
  let pe := rvcParseExtract unescape parse fileContent
    (ExtractBetweenAnchors parse render fileContent vc.fragment
      (rvcNextAnchor book virtualIndex))
  let text := joinNl ((pe.1).FormatLines width)
  let text2 := if trimSpace text = [] then pe.2 else text
  Except.ok (text2, book.virtualTOCEntries.getD virtualIndex [],
    (pe.1).GetImages)

/-- The `GetChapterContent` result dispatch of `readVirtualChapter`. -/
def rvcWithChapter (parse : Str → HtmlNode) (render : HtmlNode → Str)
    (unescape : Str → Str) (book : BookSt) (width : Nat)
    (virtualIndex : Nat) : Except Str Str →
    Except Str (Str × Str × List Str)
  | Except.error e => Except.error e
  | Except.ok fileContent =>
    rvcAfterFile parse render unescape book width virtualIndex fileContent

/-- The file-index dispatch of `readVirtualChapter`. -/
def rvcWithIndex (parse : Str → HtmlNode) (render : HtmlNode → Str)
    (unescape : Str → Str) (getChapter : Nat → Except Str Str)
    (book : BookSt) (width : Nat) (virtualIndex : Nat) :
    Option Nat → Except Str (Str × Str × List Str)
  | none => Except.error (str ("file not found for virtual chapter"))
  | some fileIndex =>
    rvcWithChapter parse render unescape book width virtualIndex
      (getChapter fileIndex)

/-- Embeds `readVirtualChapter` (pkg/reader/virtual.go).  The external
effects enter as oracles: `parse`/`render`/`unescape` for the HTML
library and `getChapter` for `Book.GetChapterContent`; the UI writes
become the returned (text, status entry, images) triple. -/
def readVirtualChapter (parse : Str → HtmlNode) (render : HtmlNode → Str)
    (unescape : Str → Str) (getChapter : Nat → Except Str Str)
    (book : BookSt) (width : Nat) (virtualIndex : Nat) :
    Except Str (Str × Str × List Str) :=
  if book.virtualContents.length ≤ virtualIndex then
    Except.error (str ("virtual chapter index out of range"))
  else
    rvcWithIndex parse render unescape getChapter book width virtualIndex
      (book.contents.findIdx? (fun c =>
        c = (book.virtualContents.getD virtualIndex ⟨[], []⟩).filePath))

/-- A two-node nested NCX (A containing B) for the C2 counterexample. -/
def C2navPoints : List NavPoint :=
  [NavPoint.mk (str ("A")) (str ("a.html"))
    [NavPoint.mk (str ("B")) (str ("b.html#x")) []]]

/-- A three-entry spine for the C2 counterexample. -/
def C2spine : List SpineItem :=
  [⟨str ("c1")⟩, ⟨str ("c2")⟩, ⟨str ("c3")⟩]

/-- Two EPUB 3 nav links for the C2 counterexample. -/
def C2navLinks : List NavLink :=
  [⟨str ("u1.html"), str ("L1")⟩, ⟨str ("u2.html"), str ("L2")⟩]

/-- The three-level A > B > C NCX nesting of claim C4. -/
def C4abc : List NavPoint :=
  [NavPoint.mk (str ("A")) (str ("a.html"))
    [NavPoint.mk (str ("B")) (str ("b.html"))
      [NavPoint.mk (str ("C")) (str ("c.html")) []]]]

/-! ## Helper lemmas about the embedded Go string primitives -/

theorem strLastIndexAux_not_mem (ch : Char) (s : Str) (hs : ch ∉ s) :
    ∀ acc best, strLastIndexAux [ch] acc s best = best := by
  induction s with
  | nil => intro acc best; simp [strLastIndexAux, List.isPrefixOf]
  | cons c t ih =>
    intro acc best
    have hc : ch ≠ c := fun h => hs (h ▸ List.mem_cons_self c t)
    have ht : ch ∉ t := fun h => hs (List.mem_cons_of_mem c h)
    simp only [strLastIndexAux, List.isPrefixOf, List.isPrefixOf_nil_left]
    rw [if_neg, ih ht]
    simp [BEq.beq, hc]

theorem strLastIndexAux_cons (pat : Str) (acc : Nat) (c : Char) (t : Str)
    (best : Option Nat) :
    strLastIndexAux pat acc (c :: t) best =
      strLastIndexAux pat (acc + 1) t
        (if pat.isPrefixOf (c :: t) then some acc else best) := rfl

theorem strLastIndexAux_last (ch : Char) (a b : Str) (hb : ch ∉ b) :
    ∀ acc best, strLastIndexAux [ch] acc (a ++ ch :: b) best =
      some (acc + a.length) := by
  induction a with
  | nil =>
    intro acc best
    rw [List.nil_append, strLastIndexAux_cons,
      strLastIndexAux_not_mem ch b hb]
    rw [if_pos (by simp [List.isPrefixOf])]
    simp
  | cons c a' ih =>
    intro acc best
    rw [List.cons_append, strLastIndexAux_cons, ih]
    simp [Nat.add_comm, Nat.add_assoc, Nat.add_left_comm]

/-- `strings.LastIndex` finds the last occurrence of a single character. -/
theorem strLastIndex_last (ch : Char) (a b : Str) (hb : ch ∉ b) :
    strLastIndex (a ++ ch :: b) [ch] = some a.length := by
  unfold strLastIndex
  rw [strLastIndexAux_last ch a b hb]
  simp

theorem strIndexFrom_single (ch : Char) (a b : Str) (ha : ch ∉ a) :
    ∀ acc, strIndexFrom [ch] acc (a ++ ch :: b) = some (acc + a.length) := by
  induction a with
  | nil =>
    intro acc
    unfold strIndexFrom
    rw [if_pos (by simp [List.isPrefixOf])]
    simp
  | cons c a' ih =>
    intro acc
    have hc : ch ≠ c := fun h => ha (h ▸ List.mem_cons_self c a')
    have ha' : ch ∉ a' := fun h => ha (List.mem_cons_of_mem c h)
    unfold strIndexFrom
    rw [if_neg (by simp [List.isPrefixOf, BEq.beq, hc])]
    simp only [List.cons_append]
    rw [ih ha']
    simp [Nat.add_comm, Nat.add_assoc, Nat.add_left_comm]

/-- `strings.Index` finds the first occurrence of a single character. -/
theorem strIndexN_single (ch : Char) (a b : Str) (ha : ch ∉ a) :
    strIndexN (a ++ ch :: b) [ch] = some a.length := by
  unfold strIndexN
  rw [strIndexFrom_single ch a b ha]
  simp

theorem walkBack_le (content : Str) (p : Nat) : walkBack content p ≤ p := by
  induction p with
  | zero => simp [walkBack]
  | succ k ih =>
    unfold walkBack
    split
    · exact Nat.le_refl _
    · exact Nat.le_trans ih (Nat.le_succ k)

theorem walkBack_succ (content : Str) (k : Nat) :
    walkBack content (k + 1) =
      if content.getD (k + 1) ('x') = ('<') then k + 1
      else walkBack content k := rfl

/-- Reading past the first list of an append. -/
theorem getD_concat (a b : Str) (n : Nat) (d : Char) :
    (a ++ b).getD (a.length + n) d = b.getD n d := by
  simp only [List.getD_eq_getElem?_getD]
  rw [List.getElem?_append_right (Nat.le_add_right _ _)]
  simp

/-- The backward walk from just past a `<`-free segment lands on the `<`. -/
theorem walkBack_finds : ∀ (u v rest : Str), ('<') ∉ v →
    rest.getD 0 ('x') ≠ ('<') →
    walkBack (u ++ ('<') :: v ++ rest) (u.length + (1 + v.length)) = u.length := by
  intro u v
  induction v using List.reverseRecOn with
  | nil =>
    intro rest _ hr
    have hp : u.length + (1 + ([] : Str).length) = u.length + 1 := by simp
    rw [hp, walkBack_succ]
    have hg : (u ++ ('<') :: ([] : Str) ++ rest).getD (u.length + 1) ('x') =
        rest.getD 0 ('x') := by
      have := getD_concat u (('<') :: rest) 1 ('x')
      simpa using this
    rw [if_neg (by rw [hg]; exact hr)]
    rcases u with _ | ⟨a, u'⟩
    · simp [walkBack]
    · have hlen : (a :: u').length = u'.length + 1 := by simp
      rw [hlen, walkBack_succ]
      rw [if_pos]
      have := getD_concat (a :: u') (('<') :: rest) 0 ('x')
      simpa [hlen] using this
  | append_singleton v' c ih =>
    intro rest hv hr
    have hc : c ≠ ('<') := fun h => hv (h ▸ List.mem_append_right v' (by simp))
    have hv' : ('<') ∉ v' := fun h => hv (List.mem_append_left _ h)
    have harr : u ++ ('<') :: (v' ++ [c]) ++ rest =
        u ++ ('<') :: v' ++ (c :: rest) := by simp
    have hlen : u.length + (1 + (v' ++ [c]).length) =
        (u.length + (1 + v'.length)) + 1 := by simp; omega
    rw [harr, hlen, walkBack_succ]
    have hg : (u ++ ('<') :: v' ++ (c :: rest)).getD
        (u.length + (1 + v'.length) + 1) ('x') = rest.getD 0 ('x') := by
      rw [show u ++ ('<') :: v' ++ (c :: rest) =
        (u ++ ('<') :: v' ++ [c]) ++ rest by simp]
      rw [show u.length + (1 + v'.length) + 1 =
        (u ++ ('<') :: v' ++ [c]).length + 0 by simp; omega]
      exact getD_concat _ rest 0 ('x')
    rw [if_neg (by rw [hg]; exact hr)]
    exact ih (c :: rest) hv' (by simpa using hc)

/-- A string starting with a non-space character does not trim to empty. -/
theorem trimSpace_cons_ne (c : Char) (l : Str) (hc : goIsSpace c = false) :
    trimSpace (c :: l) ≠ [] := by
  intro h
  unfold trimSpace at h
  rw [List.reverse_eq_nil_iff, List.dropWhile_eq_nil_iff] at h
  have hmem : c ∈ ((c :: l).dropWhile goIsSpace).reverse := by
    rw [List.dropWhile_cons_of_neg (by simp [hc])]
    simp
  have := h c hmem
  rw [hc] at this
  exact Bool.noConfusion this

/-- When `findAnchorPositions` yields a start-tag position and the slice is
not all whitespace, `ExtractBetweenAnchors` returns that slice via the fast
string-scan path (the DOM oracles are never consulted). -/
theorem ExtractBetweenAnchors_fast (parse : Str → HtmlNode)
    (render : HtmlNode → Str) (content A nA : Str)
    (sp ep? : Option Nat) (stp : Nat)
    (h0 : ¬ content = []) (h1 : ¬ A = [])
    (hfap : findAnchorPositions content A nA = (sp, ep?, some stp))
    (htrim : ¬ trimSpace (slice content stp (ep?.getD content.length)) = []) :
    ExtractBetweenAnchors parse render content A nA =
      Except.ok (slice content stp (ep?.getD content.length)) := by
  unfold ExtractBetweenAnchors
  rw [if_neg h0, if_neg h1, hfap]
  cases ep? with
  | none => simp only [Option.getD] at htrim ⊢; rw [if_pos htrim]
  | some e => simp only [Option.getD] at htrim ⊢; rw [if_pos htrim]

/-- Slicing out the middle of an append. -/
theorem slice_concat (a b : Str) (n : Nat) :
    slice (a ++ b) a.length (a.length + n) = b.take n := by
  unfold slice
  rw [List.take_append n, List.drop_left]

/-- Normal form of the first anchor pattern. -/
theorem patIdDq_eq (a : Str) :
    patIdDq a = ('i') :: ('d') :: ('=') :: ('\"') :: (a ++ [('\"')]) := rfl

theorem strIndexFrom_spec (pat : Str) :
    ∀ (s : Str) (acc j : Nat), strIndexFrom pat acc s = some j →
      acc ≤ j ∧ pat.isPrefixOf (s.drop (j - acc)) = true := by
  intro s
  induction s with
  | nil =>
    intro acc j h
    unfold strIndexFrom at h
    by_cases hp : pat.isPrefixOf [] = true
    · rw [if_pos hp] at h
      cases h
      exact ⟨Nat.le_refl _, by simpa using hp⟩
    · rw [if_neg hp] at h
      cases h
  | cons c t ih =>
    intro acc j h
    unfold strIndexFrom at h
    by_cases hp : pat.isPrefixOf (c :: t) = true
    · rw [if_pos hp] at h
      cases h
      exact ⟨Nat.le_refl _, by simpa using hp⟩
    · rw [if_neg hp] at h
      obtain ⟨hle, hpre⟩ := ih (acc + 1) j h
      refine ⟨Nat.le_of_succ_le hle, ?_⟩
      have : (c :: t).drop (j - acc) = t.drop (j - (acc + 1)) := by
        have h1 : j - acc = (j - (acc + 1)) + 1 := by omega
        rw [h1]
        rfl
      rw [this]
      exact hpre

theorem strIndexN_spec (s pat : Str) (j : Nat) (h : strIndexN s pat = some j) :
    pat.isPrefixOf (s.drop j) = true := by
  have := strIndexFrom_spec pat s 0 j h
  simpa using this.2

/-- The character at a matched pattern position is the pattern's head. -/
theorem strIndexN_head (s pat : Str) (c : Char) (t : Str) (j : Nat)
    (hpat : pat = c :: t) (h : strIndexN s pat = some j) :
    j < s.length ∧ s.get? j = some c := by
  have hpre := strIndexN_spec s pat j h
  rw [hpat] at hpre
  rcases hd : s.drop j with _ | ⟨c2, t2⟩
  · rw [hd] at hpre
    simp [List.isPrefixOf] at hpre
  · rw [hd] at hpre
    simp only [List.isPrefixOf, Bool.and_eq_true, beq_iff_eq] at hpre
    have hc2 : c2 = c := by
      have := hpre.1
      exact this.symm
    constructor
    · by_contra hlen
      push_neg at hlen
      rw [List.drop_eq_nil_of_le hlen] at hd
      cases hd
    · have : s.get? j = (s.drop j).get? 0 := by
        rw [List.get?_drop]
        simp
      rw [this, hd, hc2]
      rfl

/-- A character below the slice bounds belongs to the slice. -/
theorem mem_slice_of_get? (s : Str) (c : Char) (t pos ep : Nat)
    (hg : s.get? pos = some c) (h1 : t ≤ pos) (h2 : pos < ep) :
    c ∈ slice s t ep := by
  unfold slice
  have htake : (s.take ep).get? pos = some c := by
    rw [List.get?_take h2]
    exact hg
  have hdrop : ((s.take ep).drop t).get? (pos - t) = some c := by
    rw [List.get?_drop]
    rw [show t + (pos - t) = pos by omega]
    exact htake
  exact List.get?_mem hdrop

theorem mem_dropWhile_of_mem (p : Char → Bool) (c : Char) (l : Str)
    (hc : p c = false) (hm : c ∈ l) : c ∈ l.dropWhile p := by
  induction l with
  | nil => cases hm
  | cons a t ih =>
    by_cases hpa : p a = true
    · rw [List.dropWhile_cons_of_pos hpa]
      rcases List.mem_cons.mp hm with h | h
      · rw [h] at hc; rw [hc] at hpa; cases hpa
      · exact ih h
    · rw [List.dropWhile_cons_of_neg hpa]
      exact hm

theorem trimSpace_ne_nil_of_mem (c : Char) (l : Str)
    (hc : goIsSpace c = false) (hm : c ∈ l) : ¬ trimSpace l = [] := by
  intro h
  unfold trimSpace at h
  rw [List.reverse_eq_nil_iff, List.dropWhile_eq_nil_iff] at h
  have h1 : c ∈ l.dropWhile goIsSpace := mem_dropWhile_of_mem _ c l hc hm
  have h2 : c ∈ (l.dropWhile goIsSpace).reverse := List.mem_reverse.mpr h1
  have := h c h2
  rw [hc] at this
  exact Bool.noConfusion this

theorem trimSpace_eq_nil_of_all (l : Str)
    (h : ∀ c ∈ l, goIsSpace c = true) : trimSpace l = [] := by
  unfold trimSpace
  rw [List.reverse_eq_nil_iff, List.dropWhile_eq_nil_iff]
  intro x hx
  have h1 : (l.dropWhile goIsSpace).Sublist l := List.dropWhile_sublist _
  exact h x (h1.mem (List.mem_reverse.mp hx))

theorem exists_nonspace_of_trim_ne_nil (l : Str) (h : ¬ trimSpace l = []) :
    ∃ c ∈ l, goIsSpace c = false := by
  by_contra hcon
  push_neg at hcon
  exact h (trimSpace_eq_nil_of_all l (fun c hc => by
    have := hcon c hc
    cases hgc : goIsSpace c
    · exact absurd hgc this
    · rfl))

theorem findStartLoop_cons (content : Str) (pat : Str) (rest : List Str)
    (stp : Option Nat) :
    findStartLoop content (pat :: rest) stp =
      match strIndexN content pat with
      | none => findStartLoop content rest stp
      | some pos =>
        match strIndexN (content.drop pos) (str (">")) with
        | none => findStartLoop content rest (some (walkBack content pos))
        | some closePos =>
          (some (pos + closePos + 1), some (walkBack content pos)) := rfl

/-- Full case analysis of the start-anchor loop: either no pattern occurs
in the content (result is `(none, stp0)` unchanged), or some pattern
occurred at a position `pos`, the resulting `startTagPos` is the backward
walk from that `pos`, and the resulting `startPos` is `none` or
`pos + closePos + 1` for the same `pos`. -/
theorem findStartLoop_cases (content : Str) :
    ∀ (pats : List Str) (stp0 : Option Nat),
    (findStartLoop content pats stp0 = (none, stp0) ∧
      ∀ pat ∈ pats, strIndexN content pat = none) ∨
    (∃ pat ∈ pats, ∃ pos, strIndexN content pat = some pos ∧
      (findStartLoop content pats stp0).2 = some (walkBack content pos) ∧
      ((findStartLoop content pats stp0).1 = none ∨
        ∃ cp, strIndexN (content.drop pos) (str (">")) = some cp ∧
          (findStartLoop content pats stp0).1 = some (pos + cp + 1))) := by
  intro pats
  induction pats with
  | nil =>
    intro stp0
    left
    exact ⟨rfl, by intro pat h; cases h⟩
  | cons pat rest ih =>
    intro stp0
    rcases hidx : strIndexN content pat with _ | pos
    · have hstep : findStartLoop content (pat :: rest) stp0 =
          findStartLoop content rest stp0 := by
        rw [findStartLoop_cons]
        rw [hidx]
      rcases ih stp0 with ⟨h1, h2⟩ | ⟨p, hp, pos, h1, h2, h3⟩
      · left
        refine ⟨hstep.trans h1, ?_⟩
        intro q hq
        rcases List.mem_cons.mp hq with h | h
        · rw [h]; exact hidx
        · exact h2 q h
      · right
        exact ⟨p, List.mem_cons_of_mem _ hp, pos, h1, by rw [hstep]; exact h2,
          by rw [hstep]; exact h3⟩
    · rcases hcp : strIndexN (content.drop pos) (str (">")) with _ | cp
      · have hstep : findStartLoop content (pat :: rest) stp0 =
            findStartLoop content rest (some (walkBack content pos)) := by
          rw [findStartLoop_cons]
          rw [hidx]
          show (match strIndexN (content.drop pos) (str (">")) with
            | none => findStartLoop content rest (some (walkBack content pos))
            | some closePos =>
              (some (pos + closePos + 1), some (walkBack content pos))) = _
          rw [hcp]
        rcases ih (some (walkBack content pos)) with ⟨h1, _⟩ |
          ⟨p, hp, pos2, h1, h2, h3⟩
        · right
          refine ⟨pat, List.mem_cons_self _ _, pos, hidx, ?_, ?_⟩
          · rw [hstep, h1]
          · left
            rw [hstep, h1]
        · right
          exact ⟨p, List.mem_cons_of_mem _ hp, pos2, h1,
            by rw [hstep]; exact h2, by rw [hstep]; exact h3⟩
      · have hstep : findStartLoop content (pat :: rest) stp0 =
            (some (pos + cp + 1), some (walkBack content pos)) := by
          rw [findStartLoop_cons]
          rw [hidx]
          show (match strIndexN (content.drop pos) (str (">")) with
            | none => findStartLoop content rest (some (walkBack content pos))
            | some closePos =>
              (some (pos + closePos + 1), some (walkBack content pos))) = _
          rw [hcp]
        right
        refine ⟨pat, List.mem_cons_self _ _, pos, hidx, by rw [hstep], ?_⟩
        right
        exact ⟨cp, hcp, by rw [hstep]⟩

theorem findEndLoop_cons (content : Str) (startPos : Nat) (pat : Str)
    (rest : List Str) :
    findEndLoop content startPos (pat :: rest) =
      match strIndexN (content.drop startPos) pat with
      | none => findEndLoop content startPos rest
      | some pos =>
        match strLastIndex (slice content startPos (startPos + pos))
            (str ("<")) with
        | none => findEndLoop content startPos rest
        | some lastOpen => some (startPos + lastOpen) := rfl

/-- The end loop never returns a position before `startPos`. -/
theorem findEndLoop_ge (content : Str) (startPos : Nat) :
    ∀ (pats : List Str) (e : Nat),
      findEndLoop content startPos pats = some e → startPos ≤ e := by
  intro pats
  induction pats with
  | nil => intro e h; cases h
  | cons pat rest ih =>
    intro e h
    rw [findEndLoop_cons] at h
    rcases hidx : strIndexN (content.drop startPos) pat with _ | pos
    · rw [hidx] at h
      exact ih e h
    · rw [hidx] at h
      have h2 : (match strLastIndex (slice content startPos (startPos + pos))
            (str ("<")) with
          | none => findEndLoop content startPos rest
          | some lastOpen => some (startPos + lastOpen)) = some e := h
      rcases hlo : strLastIndex (slice content startPos (startPos + pos))
          (str ("<")) with _ | lo
      · rw [hlo] at h2
        exact ih e h2
      · rw [hlo] at h2
        cases h2
        exact Nat.le_add_right _ _

/-- Every start-anchor pattern begins with a non-space character. -/
theorem anchorPatterns_heads (a : Str) :
    ∀ pat ∈ anchorPatterns a, ∃ c t, pat = c :: t ∧ goIsSpace c = false := by
  intro pat h
  simp only [anchorPatterns, List.mem_cons, List.not_mem_nil, or_false] at h
  rcases h with h | h | h | h
  · exact ⟨('i'), ('d') :: ('=') :: ('\"') :: (a ++ [('\"')]),
      by rw [h]; rfl, by decide⟩
  · exact ⟨('i'), ('d') :: ('=') :: ('\'') :: (a ++ [('\'')]),
      by rw [h]; rfl, by decide⟩
  · exact ⟨('n'), ('a') :: ('m') :: ('e') :: ('=') :: ('\"') :: (a ++ [('\"')]),
      by rw [h]; rfl, by decide⟩
  · exact ⟨('n'), ('a') :: ('m') :: ('e') :: ('=') :: ('\'') :: (a ++ [('\'')]),
      by rw [h]; rfl, by decide⟩

mutual

/-- The `found` flag of the DOM traversal is monotone. -/
theorem traverseNode_mono (render : HtmlNode → Str) (sA nA : Str)
    (inc : Bool) : ∀ (n : HtmlNode) (st : DomState), st.found = true →
    ((traverseNode render sA nA inc n st).2).found = true
  | HtmlNode.node t d a c, st, h => by
    have hl := fun st' h' => traverseList_mono render sA nA inc c st' h'
    simp only [traverseNode]
    rw [if_neg (by simp [h])]
    by_cases h2 : st.capturing = true ∧ ¬ nA = [] ∧
        hasAnchor (HtmlNode.node t d a c) nA = true
    · rw [if_pos h2]
      exact h
    · rw [if_neg h2]
      by_cases h3 : st.capturing = true
      · rw [if_pos h3]
        exact h
      · rw [if_neg h3]
        by_cases h4 : ¬ st.endFound = true
        · rw [if_pos h4]
          have := hl st h
          by_cases h5 : (traverseList render sA nA inc c st).1 = true
          · rw [if_pos h5]
            exact this
          · rw [if_neg h5]
            exact this
        · rw [if_neg h4]
          exact h

/-- List version of `traverseNode_mono`. -/
theorem traverseList_mono (render : HtmlNode → Str) (sA nA : Str)
    (inc : Bool) : ∀ (ns : List HtmlNode) (st : DomState), st.found = true →
    ((traverseList render sA nA inc ns st).2).found = true
  | [], st, h => h
  | n :: ns, st, h => by
    have h1 := traverseNode_mono render sA nA inc n st h
    simp only [traverseList]
    by_cases h5 : (traverseNode render sA nA inc n st).1 = true
    · rw [if_pos h5]
      exact h1
    · rw [if_neg h5]
      exact traverseList_mono render sA nA inc ns _ h1

end

/-- A clean traversal state: nothing found or captured yet. -/
def DomState.clean (st : DomState) : Prop :=
  st.found = false ∧ st.capturing = false ∧ st.endFound = false

mutual

/-- From a clean state, a subtree without the start anchor changes nothing. -/
theorem traverseNode_clean (render : HtmlNode → Str) (sA nA : Str)
    (inc : Bool) : ∀ (n : HtmlNode) (st : DomState), st.clean →
    anyHasAnchor sA n = false →
    traverseNode render sA nA inc n st = (false, st)
  | HtmlNode.node t d a c, st, hc, hany => by
    have hnot : hasAnchor (HtmlNode.node t d a c) sA = false := by
      rcases Bool.or_eq_false_iff.mp (by simpa [anyHasAnchor] using hany)
        with ⟨h1, _⟩
      exact h1
    have hlist : anyHasAnchorList sA c = false := by
      rcases Bool.or_eq_false_iff.mp (by simpa [anyHasAnchor] using hany)
        with ⟨_, h2⟩
      exact h2
    have hl := traverseList_clean render sA nA inc c st hc hlist
    simp only [traverseNode]
    rw [if_neg (by simp [hnot])]
    rw [if_neg (by simp [hc.2.1])]
    rw [if_neg (by simp [hc.2.1])]
    rw [if_pos (by simp [hc.2.2])]
    rw [hl]
    simp [hc.2.2]

/-- List version of `traverseNode_clean`. -/
theorem traverseList_clean (render : HtmlNode → Str) (sA nA : Str)
    (inc : Bool) : ∀ (ns : List HtmlNode) (st : DomState), st.clean →
    anyHasAnchorList sA ns = false →
    traverseList render sA nA inc ns st = (false, st)
  | [], st, _, _ => rfl
  | n :: ns, st, hc, hany => by
    have h1 : anyHasAnchor sA n = false := by
      rcases Bool.or_eq_false_iff.mp (by simpa [anyHasAnchorList] using hany)
        with ⟨h1, _⟩
      exact h1
    have h2 : anyHasAnchorList sA ns = false := by
      rcases Bool.or_eq_false_iff.mp (by simpa [anyHasAnchorList] using hany)
        with ⟨_, h2⟩
      exact h2
    have hn := traverseNode_clean render sA nA inc n st hc h1
    simp only [traverseList]
    rw [hn]
    simp only []
    rw [if_neg (by simp)]
    exact traverseList_clean render sA nA inc ns st hc h2

end

mutual

/-- From a clean state, a subtree containing the start anchor sets `found`. -/
theorem traverseNode_finds (render : HtmlNode → Str) (sA nA : Str)
    (inc : Bool) : ∀ (n : HtmlNode) (st : DomState), st.clean →
    anyHasAnchor sA n = true →
    ((traverseNode render sA nA inc n st).2).found = true
  | HtmlNode.node t d a c, st, hc, hany => by
    have hmono := fun st' h' => traverseList_mono render sA nA inc c st' h'
    have hfinds := fun st' h1 h2 => traverseList_finds render sA nA inc c st' h1 h2
    simp only [traverseNode]
    split
    · -- the node itself carries the anchor: found is set
      split
      · rfl
      · split
        · exact hmono _ rfl
        · exact hmono _ rfl
    · next h1 =>
      have hnot : hasAnchor (HtmlNode.node t d a c) sA = false := by
        rcases Bool.eq_false_or_eq_true
            (hasAnchor (HtmlNode.node t d a c) sA) with hh | hh
        · exact absurd ⟨by simp [hc.1], hh⟩ h1
        · exact hh
      have hlist : anyHasAnchorList sA c = true := by
        have hsplit : hasAnchor (HtmlNode.node t d a c) sA = true ∨
            anyHasAnchorList sA c = true := by
          simpa [anyHasAnchor] using hany
        rcases hsplit with hh | hh
        · rw [hnot] at hh; cases hh
        · exact hh
      split
      · next h2 => exact absurd h2.1 (by simp [hc.2.1])
      · split
        · next h3 => exact absurd h3 (by simp [hc.2.1])
        · split
          · split
            · exact hfinds st hc hlist
            · exact hfinds st hc hlist
          · next h4 => exact absurd (by simp [hc.2.2] : ¬ st.endFound = true) h4

/-- List version of `traverseNode_finds`. -/
theorem traverseList_finds (render : HtmlNode → Str) (sA nA : Str)
    (inc : Bool) : ∀ (ns : List HtmlNode) (st : DomState), st.clean →
    anyHasAnchorList sA ns = true →
    ((traverseList render sA nA inc ns st).2).found = true
  | [], _, _, hany => by cases hany
  | n :: ns, st, hc, hany => by
    have hsplit : anyHasAnchor sA n = true ∨ anyHasAnchorList sA ns = true := by
      simpa [anyHasAnchorList] using hany
    rcases hfirst : anyHasAnchor sA n with _ | _
    · have hn := traverseNode_clean render sA nA inc n st hc hfirst
      have hh : anyHasAnchorList sA ns = true := by
        rcases hsplit with hh | hh
        · rw [hfirst] at hh; cases hh
        · exact hh
      simp only [traverseList]
      rw [hn]
      simp only []
      rw [if_neg (by simp)]
      exact traverseList_finds render sA nA inc ns st hc hh
    · have h1 := traverseNode_finds render sA nA inc n st hc hfirst
      simp only [traverseList]
      split
      · exact h1
      · exact traverseList_mono render sA nA inc ns _ h1

end

/-- The DOM strategy's `found` result is exactly "some node of the tree
carries the start anchor". -/
theorem extractContentDOM_found (render : HtmlNode → Str) (doc : HtmlNode)
    (sA nA : Str) (inc : Bool) :
    (extractContentDOM render doc sA nA inc).1 = anyHasAnchor sA doc := by
  unfold extractContentDOM
  rcases hany : anyHasAnchor sA doc with _ | _
  · rw [traverseNode_clean render sA nA inc doc _ ⟨rfl, rfl, rfl⟩ hany]
  · exact traverseNode_finds render sA nA inc doc _ ⟨rfl, rfl, rfl⟩ hany

/-- Shape of `findAnchorPositions` in terms of the start loop's result. -/
theorem findAnchorPositions_eq (content A nA : Str) :
    findAnchorPositions content A nA =
      ((findStartLoop content (anchorPatterns A) none).1,
       (match (findStartLoop content (anchorPatterns A) none).1 with
        | some sp =>
          if nA ≠ [] then findEndLoop content sp (anchorPatterns nA) else none
        | none => none),
       (findStartLoop content (anchorPatterns A) none).2) := rfl

/-- Whenever some start-anchor pattern occurs in the content, the fast
string-scan path succeeds: the extracted slice always contains the
pattern's (non-space) head character. -/
theorem extract_ok_of_stp (parse : Str → HtmlNode) (render : HtmlNode → Str)
    (content A nA : Str) (h0 : ¬ content = []) (h1 : ¬ A = [])
    (t : Nat) (ht : (findStartLoop content (anchorPatterns A) none).2 = some t) :
    ∃ r, ExtractBetweenAnchors parse render content A nA = Except.ok r := by
  rcases findStartLoop_cases content (anchorPatterns A) none with
    ⟨heq, _⟩ | ⟨pat, hpat, pos, hpos, hstp, hsp⟩
  · rw [heq] at ht
    cases ht
  · obtain ⟨c, tl, hpc, hcs⟩ := anchorPatterns_heads A pat hpat
    obtain ⟨hlt, hget⟩ := strIndexN_head content pat c tl pos hpc hpos
    have htwb : t = walkBack content pos := by
      rw [ht] at hstp
      exact Option.some.inj hstp
    have htle : t ≤ pos := htwb ▸ walkBack_le content pos
    -- name the end position option
    rcases hsp with hnone | ⟨cp, hcp, hsome⟩
    · -- no pattern produced a startPos: the end position is the doc end
      have hfap : findAnchorPositions content A nA =
          ((findStartLoop content (anchorPatterns A) none).1, none,
           some t) := by
        rw [findAnchorPositions_eq, hnone, ht]
      rw [hnone] at hfap
      refine ⟨_, ExtractBetweenAnchors_fast parse render content A nA
        none none t h0 h1 hfap ?_⟩
      simp only [Option.getD]
      exact trimSpace_ne_nil_of_mem c _ hcs
        (mem_slice_of_get? content c t pos content.length hget htle hlt)
    · -- a startPos was produced from the same position
      set ep? : Option Nat :=
        (if nA ≠ [] then
          findEndLoop content (pos + cp + 1) (anchorPatterns nA) else none)
        with hep
      have hfap : findAnchorPositions content A nA =
          (some (pos + cp + 1), ep?, some t) := by
        rw [findAnchorPositions_eq, hsome, ht]
      have hposlt : pos < ep?.getD content.length := by
        rcases hv : ep? with _ | e
        · simpa using hlt
        · rw [hv] at hep
          have he : findEndLoop content (pos + cp + 1) (anchorPatterns nA) =
              some e := by
            by_cases hna : nA ≠ []
            · rw [if_pos hna] at hep
              exact hep.symm
            · rw [if_neg hna] at hep
              cases hep
          have := findEndLoop_ge content (pos + cp + 1) (anchorPatterns nA)
            e he
          simp only [Option.getD]
          omega
      refine ⟨_, ExtractBetweenAnchors_fast parse render content A nA
        (some (pos + cp + 1)) ep? t h0 h1 hfap ?_⟩
      exact trimSpace_ne_nil_of_mem c _ hcs
        (mem_slice_of_get? content c t pos _ hget htle hposlt)

/-- If `ExtractBetweenAnchors` reports `anchorNotFound`, the DOM traversal
did not find the start anchor. -/
theorem extract_anchorNotFound_inv (parse : Str → HtmlNode)
    (render : HtmlNode → Str) (content A nA : Str)
    (h : ExtractBetweenAnchors parse render content A nA =
      Except.error ExtractErr.anchorNotFound) :
    (extractContentDOM render (parse content) A nA true).1 = false := by
  unfold ExtractBetweenAnchors at h
  by_cases h0 : content = []
  · rw [if_pos h0] at h
    cases h
  rw [if_neg h0] at h
  by_cases h1 : A = []
  · rw [if_pos h1] at h
    cases h
  rw [if_neg h1] at h
  simp only [] at h
  split at h
  · cases h
  · split at h
    · next hnf =>
      simpa using hnf
    · split at h
      · cases h
      · cases h

/-- A successful `ExtractBetweenAnchors` result does not trim to empty. -/
theorem extract_ok_inv (parse : Str → HtmlNode) (render : HtmlNode → Str)
    (content A nA r : Str)
    (h : ExtractBetweenAnchors parse render content A nA = Except.ok r) :
    ¬ trimSpace r = [] := by
  unfold ExtractBetweenAnchors at h
  by_cases h0 : content = []
  · rw [if_pos h0] at h
    cases h
  rw [if_neg h0] at h
  by_cases h1 : A = []
  · rw [if_pos h1] at h
    cases h
  rw [if_neg h1] at h
  simp only [] at h
  split at h
  · next r0 heq =>
    split at heq
    · split at heq
      · next htr =>
        cases heq
        cases h
        exact htr
      · cases heq
    · cases heq
  · split at h
    · cases h
    · split at h
      · cases h
      · next htr =>
        cases h
        exact htr

theorem nextTok_rest_le (c : Char) (rest : Str) :
    (nextTok c rest).2.length ≤ rest.length := by
  have hdw : ∀ (p : Char → Bool) (l : Str),
      (l.dropWhile p).length ≤ l.length :=
    fun p l => (List.dropWhile_sublist p (l := l)).length_le
  have hq : ∀ q, (match quotedTok q rest with
      | some t => t
      | none => ([q], rest)).2.length ≤ rest.length := by
    intro q
    unfold quotedTok
    rcases hm : rest.dropWhile (fun x => ¬ x = q) with _ | ⟨z, rem2⟩
    · simp only [hm]
      exact Nat.le_refl _
    · simp only [hm]
      have hlen : (z :: rem2).length ≤ rest.length := by
        rw [← hm]
        exact hdw _ _
      simp only [List.length_cons] at hlen
      omega
  unfold nextTok
  split
  · exact hq _
  split
  · exact hq _
  split
  · exact hq _
  split
  · split
    · rename_i rest2 _
      dsimp only
      simp only [List.length_cons]
      exact Nat.le_trans (hdw _ _) (Nat.le_succ _)
    · dsimp only
      exact Nat.le_refl _
  split
  · dsimp only
    exact hdw _ _
  split
  · split
    · rename_i rest2 _
      dsimp only
      simp only [List.length_cons]
      exact Nat.le_trans (hdw _ _) (Nat.le_succ _)
    · dsimp only
      exact Nat.le_refl _
  split
  · dsimp only
    exact hdw _ _
  split
  · dsimp only
    exact hdw _ _
  split
  · dsimp only
    exact Nat.le_refl _
  · dsimp only
    exact hdw _ _

/-- The fuel in `tokenizeCode` is irrelevant once it covers the input
length, so `tokenizeCode` computes the unbounded scan loop. -/
theorem tokenizeCodeAux_ext : ∀ (fuel fuel' : Nat) (s : Str),
    s.length ≤ fuel → s.length ≤ fuel' →
    tokenizeCodeAux fuel s = tokenizeCodeAux fuel' s := by
  intro fuel
  induction fuel with
  | zero =>
    intro fuel' s hs _
    have : s = [] := List.length_eq_zero.mp (Nat.le_zero.mp hs)
    subst this
    cases fuel' <;> rfl
  | succ fuel ih =>
    intro fuel' s hs hs'
    rcases s with _ | ⟨c, rest⟩
    · cases fuel' <;> rfl
    · rcases fuel' with _ | fuel'
      · simp at hs'
      · simp only [tokenizeCodeAux]
        congr 1
        have hlt := nextTok_rest_le c rest
        simp only [List.length_cons] at hs hs'
        exact ih fuel' _ (by omega) (by omega)

/-! ### Word-packing lemmas for the formatter (claim C9) -/

theorem joinSp_cons_cons (w y : Str) (ys : List Str) :
    joinSp (w :: y :: ys) = w ++ (' ') :: joinSp (y :: ys) := rfl

theorem joinSp_len_ge_head (w : Str) (ws : List Str) :
    w.length ≤ (joinSp (w :: ws)).length := by
  rcases ws with _ | ⟨y, ys⟩
  · simp [joinSp]
  · rw [joinSp_cons_cons]
    simp

theorem joinSp_cons_len_le (w : Str) (ws : List Str) :
    (joinSp (w :: ws)).length ≤ w.length + 1 + (joinSp ws).length := by
  rcases ws with _ | ⟨y, ys⟩
  · simp [joinSp]
  · rw [joinSp_cons_cons]
    simp only [List.length_append, List.length_cons]
    omega

theorem joinSp_merge (cur w : Str) (ws : List Str) :
    joinSp ((cur ++ (' ') :: w) :: ws) = cur ++ (' ') :: joinSp (w :: ws) := by
  rcases ws with _ | ⟨y, ys⟩
  · simp [joinSp]
  · rw [joinSp_cons_cons, joinSp_cons_cons]
    simp

theorem joinSp_ne_nil (w : Str) (ws : List Str) (hw : ¬ w = []) :
    ¬ joinSp (w :: ws) = [] := by
  rcases ws with _ | ⟨y, ys⟩
  · simpa [joinSp] using hw
  · rw [joinSp_cons_cons]
    rcases w with _ | ⟨c, t⟩
    · simp
    · simp

/-- Invariant of `fieldsAux`: every produced field is non-empty and free of
whitespace. -/
theorem fieldsAux_spec : ∀ (s : Str) (acc : Option Str),
    (∀ w, acc = some w → (¬ w = [] ∧ ∀ c ∈ w, goIsSpace c = false)) →
    ∀ u ∈ fieldsAux acc s, ¬ u = [] ∧ ∀ c ∈ u, goIsSpace c = false := by
  intro s
  induction s with
  | nil =>
    intro acc hacc u hu
    rcases acc with _ | w
    · cases hu
    · simp only [fieldsAux, List.mem_singleton] at hu
      obtain ⟨hne, hch⟩ := hacc w rfl
      subst hu
      exact ⟨by simpa using hne, fun c hc => hch c (List.mem_reverse.mp hc)⟩
  | cons c t ih =>
    intro acc hacc u hu
    rcases acc with _ | w
    · simp only [fieldsAux] at hu
      by_cases hsp : goIsSpace c = true
      · rw [if_pos hsp] at hu
        exact ih none (by intro w h; cases h) u hu
      · rw [if_neg hsp] at hu
        refine ih (some [c]) ?_ u hu
        intro w h
        cases h
        exact ⟨by simp, fun x hx => by
          rw [List.mem_singleton.mp hx]
          exact Bool.not_eq_true _ ▸ Bool.of_not_eq_true hsp⟩
    · simp only [fieldsAux] at hu
      by_cases hsp : goIsSpace c = true
      · rw [if_pos hsp] at hu
        rcases List.mem_cons.mp hu with h | h
        · obtain ⟨hne, hch⟩ := hacc w rfl
          subst h
          exact ⟨by simpa using hne,
            fun x hx => hch x (List.mem_reverse.mp hx)⟩
        · exact ih none (by intro w h; cases h) u h
      · rw [if_neg hsp] at hu
        refine ih (some (c :: w)) ?_ u hu
        intro w' h
        cases h
        obtain ⟨hne, hch⟩ := hacc w rfl
        refine ⟨by simp, fun x hx => ?_⟩
        rcases List.mem_cons.mp hx with h | h
        · rw [h]
          exact Bool.of_not_eq_true hsp
        · exact hch x h

theorem goFields_spec (s : Str) :
    ∀ u ∈ goFields s, ¬ u = [] ∧ ∀ c ∈ u, goIsSpace c = false :=
  fieldsAux_spec s none (by intro w h; cases h)

/-- The single-space re-join of the fields never exceeds the original
length. -/
theorem fieldsAux_len : ∀ (s : Str) (acc : Option Str),
    (joinSp (fieldsAux acc s)).length ≤
      acc.elim 0 List.length + s.length := by
  intro s
  induction s with
  | nil =>
    intro acc
    rcases acc with _ | w
    · simp [fieldsAux, joinSp]
    · simp [fieldsAux, joinSp]
  | cons c t ih =>
    intro acc
    rcases acc with _ | w
    · simp only [fieldsAux]
      by_cases hsp : goIsSpace c = true
      · rw [if_pos hsp]
        have := ih none
        simp at this ⊢
        omega
      · rw [if_neg hsp]
        have := ih (some [c])
        simp at this ⊢
        omega
    · simp only [fieldsAux]
      by_cases hsp : goIsSpace c = true
      · rw [if_pos hsp]
        have h1 := joinSp_cons_len_le w.reverse (fieldsAux none t)
        have h2 := ih none
        simp only [List.length_reverse] at h1
        simp at h2 ⊢
        omega
      · rw [if_neg hsp]
        have := ih (some (c :: w))
        simp at this ⊢
        omega

theorem joinSp_goFields_len (s : Str) :
    (joinSp (goFields s)).length ≤ s.length := by
  have := fieldsAux_len s none
  simpa using this

/-- Scanning a whitespace-free chunk just accumulates it. -/
theorem fieldsAux_push : ∀ (x : Str) (acc s : Str),
    (∀ c ∈ x, goIsSpace c = false) →
    fieldsAux (some acc) (x ++ s) = fieldsAux (some (x.reverse ++ acc)) s := by
  intro x
  induction x with
  | nil =>
    intro acc s _
    simp
  | cons c x' ih =>
    intro acc s hx
    have hc : goIsSpace c = false := hx c (List.mem_cons_self _ _)
    have hx' : ∀ c ∈ x', goIsSpace c = false :=
      fun d hd => hx d (List.mem_cons_of_mem _ hd)
    simp only [List.cons_append, fieldsAux]
    rw [if_neg (by simp [hc])]
    simp only [List.append_eq]
    rw [ih (c :: acc) s hx']
    congr 1
    simp

/-- Fields of a single-space join of clean words are the words themselves. -/
theorem goFields_joinSp : ∀ (ws : List Str),
    (∀ w ∈ ws, ¬ w = [] ∧ ∀ c ∈ w, goIsSpace c = false) →
    goFields (joinSp ws) = ws := by
  intro ws
  induction ws with
  | nil => intro _; rfl
  | cons w ws' ih =>
    intro hws
    obtain ⟨hne, hch⟩ := hws w (List.mem_cons_self _ _)
    have hws' := fun u hu => hws u (List.mem_cons_of_mem _ hu)
    rcases w with _ | ⟨c, w2⟩
    · exact absurd rfl hne
    have hc : goIsSpace c = false := hch c (List.mem_cons_self _ _)
    have hw2 : ∀ x ∈ w2, goIsSpace x = false :=
      fun x hx => hch x (List.mem_cons_of_mem _ hx)
    rcases ws' with _ | ⟨y, ys⟩
    · show fieldsAux none (c :: w2) = [c :: w2]
      have h0 : fieldsAux none (c :: w2) = fieldsAux (some [c]) w2 := by
        simp only [fieldsAux]
        rw [if_neg (by simp [hc])]
      rw [h0]
      have h1 : fieldsAux (some [c]) (w2 ++ []) =
          fieldsAux (some (w2.reverse ++ [c])) [] := fieldsAux_push w2 [c] [] hw2
      rw [List.append_nil] at h1
      rw [h1]
      show [(w2.reverse ++ [c]).reverse] = [c :: w2]
      simp
    · rw [joinSp_cons_cons]
      show fieldsAux none ((c :: w2) ++ (' ') :: joinSp (y :: ys)) = _
      simp only [List.cons_append, fieldsAux]
      rw [if_neg (by simp [hc])]
      simp only [List.append_eq]
      have h1 := fieldsAux_push w2 [c] ((' ') :: joinSp (y :: ys)) hw2
      rw [h1]
      show fieldsAux (some (w2.reverse ++ [c])) ((' ') :: joinSp (y :: ys)) = _
      simp only [fieldsAux]
      rw [if_pos (by decide)]
      have hih : fieldsAux none (joinSp (y :: ys)) = y :: ys := ih hws'
      rw [hih]
      congr 1
      simp

/-- When the whole join fits strictly below the limit, the greedy packer
never flushes. -/
theorem greedy_aux (width : Nat) : ∀ (ws : List Str) (cur : Str),
    ¬ cur = [] → (joinSp (cur :: ws)).length + 1 ≤ width →
    ws.foldl (greedyStep width) ([], cur) = ([], joinSp (cur :: ws)) := by
  intro ws
  induction ws with
  | nil => intro cur _ _; rfl
  | cons w ws' ih =>
    intro cur hcur hfit
    have hlen : cur.length + w.length + 1 ≤ width := by
      have h1 : (joinSp (cur :: w :: ws')).length =
          cur.length + 1 + (joinSp (w :: ws')).length := by
        rw [joinSp_cons_cons]
        simp only [List.length_append, List.length_cons]
        omega
      have h2 := joinSp_len_ge_head w ws'
      omega
    have hstep : greedyStep width ([], cur) w =
        ([], cur ++ (' ') :: w) := by
      unfold greedyStep
      rw [if_pos hlen, if_neg hcur]
    simp only [List.foldl_cons, hstep]
    have hm := joinSp_merge cur w ws'
    have h3 : joinSp ((cur ++ (' ') :: w) :: ws') = joinSp (cur :: w :: ws') := by
      rw [hm, joinSp_cons_cons]
    rw [ih (cur ++ (' ') :: w) (by simp) (by rw [h3]; exact hfit)]
    rw [hm]
    rw [joinSp_cons_cons]

/-- `formatWrappedLine` on an already-narrow line: the single packed line
(or nothing for blank input). -/
theorem formatWrappedLine_narrow (l : Str) (width : Nat)
    (h : l.length < width) :
    formatWrappedLine l width =
      if l = [] then [[]]
      else if goFields l = [] then []
      else [joinSp (goFields l)] := by
  unfold formatWrappedLine
  by_cases hl : l = []
  · rw [if_pos hl, if_pos hl]
  rw [if_neg hl, if_neg hl]
  rcases hf : goFields l with _ | ⟨w, ws⟩
  · show (let r := greedyWrap [] width
      if ¬ r.2 = [] then r.1 ++ [r.2] else r.1) = []
    simp [greedyWrap]
  · have hfit : (joinSp (w :: ws)).length + 1 ≤ width := by
      have h1 := joinSp_goFields_len l
      rw [hf] at h1
      omega
    obtain ⟨hwne, _⟩ := goFields_spec l w (by rw [hf]; exact List.mem_cons_self _ _)
    have hwlen : w.length + 1 ≤ width := by
      have := joinSp_len_ge_head w ws
      omega
    have hfirst : greedyStep width ([], []) w = ([], w) := by
      unfold greedyStep
      rw [if_pos (by simpa using hwlen), if_pos rfl]
    show (let r := greedyWrap (w :: ws) width
      if ¬ r.2 = [] then r.1 ++ [r.2] else r.1) = [joinSp (w :: ws)]
    unfold greedyWrap
    simp only [List.foldl_cons, hfirst]
    rw [greedy_aux width ws w hwne hfit]
    simp only []
    rw [if_pos]
    · simp
    · exact joinSp_ne_nil w ws hwne

theorem foldl_append_flatMap (g : Nat × Str → List Str) :
    ∀ (xs : List (Nat × Str)) (acc : List Str),
    xs.foldl (fun a il => a ++ g il) acc = acc ++ xs.flatMap g := by
  intro xs
  induction xs with
  | nil => intro acc; simp
  | cons x xs ih =>
    intro acc
    simp only [List.foldl_cons, List.flatMap_cons, ih]
    simp

/-- On a state with no role marks, `FormatLines` is the plain greedy wrap
of every line followed by a blank separator. -/
theorem FormatLines_plain (L : List Str) (width : Nat) (hw : ¬ width = 0) :
    (mkPlainParser L).FormatLines width =
      L.flatMap (fun l => formatWrappedLine l width ++ [[]]) := by
  unfold HTMLParser.FormatLines
  rw [if_neg hw]
  show L.enum.foldl (fun acc il =>
      if ([] : List Nat).contains il.1 then _
      else if ([] : List Nat).contains il.1 then _
      else if ([] : List Nat).contains il.1 then _
      else if ([] : List Nat).contains il.1 then _
      else acc ++ formatWrappedLine il.2 width ++ [[]]) [] = _
  simp only [List.contains_nil, Bool.false_eq_true, if_false]
  have h1 := foldl_append_flatMap
    (fun il => formatWrappedLine il.2 width ++ [[]]) L.enum []
  simp only [List.nil_append] at h1
  rw [show (fun (acc : List Str) (il : Nat × Str) =>
      acc ++ (formatWrappedLine il.2 width ++ [[]])) =
    (fun acc il => acc ++ formatWrappedLine il.2 width ++ [[]]) by
      funext a il; simp] at h1
  rw [h1]
  rw [show L.enum.flatMap (fun il => formatWrappedLine il.2 width ++ [[]]) =
    (L.enum.map Prod.snd).flatMap (fun l => formatWrappedLine l width ++ [[]])
    by rw [List.flatMap_map]]
  rw [List.enum_map_snd]

theorem filter_flatMap_comm (p : Str → Bool) (g : Str → List Str) :
    ∀ (L : List Str),
    (L.flatMap g).filter p = L.flatMap (fun l => (g l).filter p) := by
  intro L
  induction L with
  | nil => rfl
  | cons l L ih =>
    simp only [List.flatMap_cons, List.filter_append, ih]

theorem filter_g_per_line (l : Str) (width : Nat) (h : l.length < width) :
    (formatWrappedLine l width ++ [[]]).flatMap
        (fun x => (formatWrappedLine x width ++ [[]]).filter
          (fun y : Str => !y.isEmpty)) =
      (formatWrappedLine l width ++ [[]]).filter (fun y : Str => !y.isEmpty) := by
  have hfwnil : formatWrappedLine [] width = [[]] := by
    unfold formatWrappedLine
    rw [if_pos rfl]
  have hblank : (formatWrappedLine [] width ++ [[]]).filter
      (fun y : Str => !y.isEmpty) = [] := by
    rw [hfwnil]
    rfl
  rw [formatWrappedLine_narrow l width h]
  by_cases hl : l = []
  · rw [if_pos hl]
    simp only [List.singleton_append, List.flatMap_cons, List.flatMap_nil,
      List.append_nil, hblank]
    rfl
  rw [if_neg hl]
  rcases hf : goFields l with _ | ⟨w, ws⟩
  · rw [if_pos rfl]
    simp only [List.nil_append, List.flatMap_cons, List.flatMap_nil,
      List.append_nil, hblank]
    rfl
  · rw [if_neg (by simp)]
    obtain ⟨hwne, _⟩ := goFields_spec l w
      (by rw [hf]; exact List.mem_cons_self _ _)
    have hpkne : ¬ joinSp (w :: ws) = [] := joinSp_ne_nil w ws hwne
    have hpklen : (joinSp (w :: ws)).length < width := by
      have h1 := joinSp_goFields_len l
      rw [hf] at h1
      omega
    have hpkfields : goFields (joinSp (w :: ws)) = w :: ws := by
      refine goFields_joinSp (w :: ws) ?_
      intro u hu
      exact goFields_spec l u (by rw [hf]; exact hu)
    have hpk : formatWrappedLine (joinSp (w :: ws)) width =
        [joinSp (w :: ws)] := by
      rw [formatWrappedLine_narrow _ width hpklen, if_neg hpkne, hpkfields,
        if_neg (by simp)]
    have hne : (!(joinSp (w :: ws)).isEmpty) = true := by
      rcases hj : joinSp (w :: ws) with _ | _
      · exact absurd hj hpkne
      · rfl
    simp only [List.cons_append, List.nil_append, List.flatMap_cons,
      List.flatMap_nil, List.append_nil, hblank, hpk]

/-! ## Theorems for claims C3 and C7 -/

/-- C7 counterexample: for the archive whose `container.xml` declares the
rootfile `content.opf` while the archive holds a same-named file
`OEBPS/content.opf`, `parseContainer` uses the declared path `content.opf`,
not the path under `OEBPS` the claim predicts.  (The embedded
`parseContainer` takes no archive information at all; the `dir` oracle is
instantiated with Go's `filepath.Dir` value on this input.) -/
theorem C7_counterexample :
    (str ("OEBPS/content.opf")) ∈ c7ArchiveEntries ∧
    parseContainer (fun _ => str (".")) c7Container =
      Except.ok (str ("content.opf"), str ("./")) ∧
    str ("content.opf") ≠ str ("OEBPS/content.opf") := by
  refine ⟨by decide, rfl, by decide⟩

/-- C7 amended: `parseContainer` always takes the first declared rootfile's
full path as the package location, regardless of the archive's directory
layout — there is no `OEBPS` same-name fallback (the only `OEBPS` fallback
in the code is in image extraction, `pkg/reader/reader.go`). -/
theorem C7_amended (dir : Str → Str) (c : EpubContainer)
    (rf : RootFileDecl) (rest : List RootFileDecl)
    (h : c.rootFiles = rf :: rest) :
    ∃ rd : Str, parseContainer dir c = Except.ok (rf.fullPath, rd) := by
  unfold parseContainer
  rw [h]
  exact ⟨_, rfl⟩

/-- C7 amended, witness. -/
theorem C7_amended_witness :
    ∃ rd : Str, parseContainer (fun _ => str (".")) c7Container =
      Except.ok (str ("content.opf"), rd) :=
  C7_amended (fun _ => str (".")) c7Container
    { fullPath := str ("content.opf"),
      mediaType := str ("application/oebps-package+xml") } [] rfl

/-- C3: an NCX manifest item is selected as TOC source whenever one exists —
also when the package version is "3.0" (no version condition guards the NCX
loop) — and the `properties == "nav"` search selects an item only when no
manifest item has the NCX media type and the version is "3.0". -/
theorem C3_ncx_priority (pkg : Package) :
    (∀ it : ManifestItem,
      pkg.manifest.find? (fun x => x.mediaType = ncxMediaType) = some it →
      selectTOCItem pkg = some (TOCSelection.ncx it)) ∧
    (∀ it : ManifestItem,
      selectTOCItem pkg = some (TOCSelection.nav it) →
      (∀ x ∈ pkg.manifest, ¬ x.mediaType = ncxMediaType) ∧
      pkg.version = str ("3.0")) := by
  constructor
  · intro it h
    unfold selectTOCItem
    rw [h]
  · intro it h
    unfold selectTOCItem at h
    rcases hf : pkg.manifest.find? (fun x => x.mediaType = ncxMediaType) with _ | it'
    · rw [hf] at h
      by_cases hv : pkg.version = str ("3.0")
      · refine ⟨?_, hv⟩
        intro x hx hmt
        have := List.find?_eq_none.mp hf x hx
        simp [hmt] at this
      · simp [hv] at h
    · rw [hf] at h
      simp at h

/-- C3 witness: a version-"3.0" package holding both an NCX item and a
`nav`-properties item selects the NCX item. -/
theorem C3_ncx_priority_witness :
    selectTOCItem
      { version := str ("3.0"),
        manifest :=
          [ { id := str ("nav1"), href := str ("nav.xhtml"),
              mediaType := str ("application/xhtml+xml"),
              properties := str ("nav") },
            { id := str ("ncx1"), href := str ("toc.ncx"),
              mediaType := str ("application/x-dtbncx+xml"),
              properties := str ("") } ],
        spine := [] }
      = some (TOCSelection.ncx
          { id := str ("ncx1"), href := str ("toc.ncx"),
            mediaType := str ("application/x-dtbncx+xml"),
            properties := str ("") }) := by
  exact (C3_ncx_priority _).1 _ (by decide)


/-- C1 amended, step 1: the start loop breaks on the first pattern. -/
theorem findStartLoop_first (content A : Str) (p cp : Nat)
    (hfirst : strIndexN content (patIdDq A) = some p)
    (hclose : strIndexN (content.drop p) (str (">")) = some cp) :
    findStartLoop content (anchorPatterns A) none =
      (some (p + cp + 1), some (walkBack content p)) := by
  have hp : anchorPatterns A =
      patIdDq A :: [str ("id='") ++ A ++ str ("'"),
        str ("name=\"") ++ A ++ str ("\""),
        str ("name='") ++ A ++ str ("'")] := rfl
  rw [hp]
  unfold findStartLoop
  simp only [hfirst, hclose]

/-- C1 amended, step 2: the end loop breaks on the first pattern. -/
theorem findEndLoop_first (content B : Str) (startPos q lo : Nat)
    (hq : strIndexN (content.drop startPos) (patIdDq B) = some q)
    (hlo : strLastIndex (slice content startPos (startPos + q)) (str ("<")) =
      some lo) :
    findEndLoop content startPos (anchorPatterns B) = some (startPos + lo) := by
  have hp : anchorPatterns B =
      patIdDq B :: [str ("id='") ++ B ++ str ("'"),
        str ("name=\"") ++ B ++ str ("\""),
        str ("name='") ++ B ++ str ("'")] := rfl
  rw [hp]
  unfold findEndLoop
  simp only [hq, hlo]


/-- C1 corrected/amended: for a document decomposed as
`u ++ '<' ++ v ++ id="A" ++ w1 ++ '>' ++ w2 ++ '<' ++ x ++ id="B" ++ y`
in which the first occurrence of the literal pattern `id="A"` lies inside
the tag carrying anchor A (`v` holds no `<`), and the first occurrence of
`id="B"` after the start tag's close lies inside the tag carrying anchor B
(`x` holds no `<`), `ExtractBetweenAnchors` returns exactly the substring
from the opening `<` of A's tag up to (exclusively) the opening `<` of B's
tag; with an empty end anchor it returns the extension of that same
substring to the document end, of which the former is a prefix (superset
property). -/
theorem C1_amended (parse : Str → HtmlNode) (render : HtmlNode → Str)
    (u v w1 w2 x y A B : Str)
    (hA : ¬ A = []) (hB : ¬ B = []) (hgtA : ('>') ∉ A)
    (hv : ('<') ∉ v) (hw1 : ('>') ∉ w1) (hx : ('<') ∉ x)
    (doc : Str)
    (hdoc : doc = u ++ ('<') :: v ++ patIdDq A ++ w1 ++ ('>') :: w2 ++
      ('<') :: x ++ patIdDq B ++ y)
    (hfirst : strIndexN doc (patIdDq A) = some (u.length + (1 + v.length)))
    (hend : strIndexN
      (doc.drop (u.length + (1 + v.length) + ((patIdDq A).length + w1.length) + 1))
      (patIdDq B) = some (w2.length + (1 + x.length))) :
    ExtractBetweenAnchors parse render doc A B =
      Except.ok (('<') :: v ++ patIdDq A ++ w1 ++ ('>') :: w2) ∧
    ExtractBetweenAnchors parse render doc A [] =
      Except.ok (('<') :: v ++ patIdDq A ++ w1 ++ ('>') :: w2 ++
        ('<') :: x ++ patIdDq B ++ y) ∧
    (('<') :: v ++ patIdDq A ++ w1 ++ ('>') :: w2) <+:
      (('<') :: v ++ patIdDq A ++ w1 ++ ('>') :: w2 ++
        ('<') :: x ++ patIdDq B ++ y) := by
  have hne : ¬ doc = [] := by rw [hdoc]; simp
  -- the backward walk from the pattern position lands on A's tag opening
  have hwb : walkBack doc (u.length + (1 + v.length)) = u.length := by
    rw [hdoc]
    have h := walkBack_finds u v
      (patIdDq A ++ w1 ++ ('>') :: w2 ++ ('<') :: x ++ patIdDq B ++ y) hv
      (by rw [patIdDq_eq]; simp [List.getD])
    simpa using h
  -- dropping to the pattern position exposes the tail
  have hdrop1 : doc.drop (u.length + (1 + v.length)) =
      patIdDq A ++ w1 ++ ('>') :: w2 ++ ('<') :: x ++ patIdDq B ++ y := by
    rw [hdoc]
    rw [show u ++ ('<') :: v ++ patIdDq A ++ w1 ++ ('>') :: w2 ++
      ('<') :: x ++ patIdDq B ++ y =
      (u ++ ('<') :: v) ++ (patIdDq A ++ w1 ++ ('>') :: w2 ++
        ('<') :: x ++ patIdDq B ++ y) by simp]
    rw [show u.length + (1 + v.length) = (u ++ ('<') :: v).length by
      simp; omega]
    exact List.drop_left _ _
  -- the first '>' after the pattern closes A's tag
  have hclose : strIndexN (doc.drop (u.length + (1 + v.length))) (str (">")) =
      some ((patIdDq A).length + w1.length) := by
    rw [hdrop1]
    rw [show patIdDq A ++ w1 ++ ('>') :: w2 ++ ('<') :: x ++ patIdDq B ++ y =
      (patIdDq A ++ w1) ++ ('>') :: (w2 ++ ('<') :: x ++ patIdDq B ++ y) by
        simp]
    have hmem : ('>') ∉ patIdDq A ++ w1 := by
      intro h
      rcases List.mem_append.mp h with h1 | h1
      · rw [patIdDq_eq] at h1
        simp only [List.mem_cons] at h1
        rcases h1 with h1 | h1 | h1 | h1 | h1
        · exact absurd h1 (by decide)
        · exact absurd h1 (by decide)
        · exact absurd h1 (by decide)
        · exact absurd h1 (by decide)
        · rcases List.mem_append.mp h1 with h2 | h2
          · exact hgtA h2
          · exact absurd (List.mem_singleton.mp h2) (by decide)
      · exact hw1 h1
    have := strIndexN_single ('>') (patIdDq A ++ w1)
      (w2 ++ ('<') :: x ++ patIdDq B ++ y) hmem
    rw [show (str (">")) = [('>')] from rfl]
    rw [this]
    simp
  have hstart : findStartLoop doc (anchorPatterns A) none =
      (some (u.length + (1 + v.length) + ((patIdDq A).length + w1.length) + 1),
       some u.length) := by
    rw [findStartLoop_first doc A _ _ hfirst hclose, hwb]
  -- abbreviation for the computed startPos
  set sp := u.length + (1 + v.length) + ((patIdDq A).length + w1.length) + 1
    with hsp
  -- dropping to startPos exposes w2 and the rest
  have hdrop2 : doc.drop sp = w2 ++ ('<') :: x ++ patIdDq B ++ y := by
    rw [hdoc]
    rw [show u ++ ('<') :: v ++ patIdDq A ++ w1 ++ ('>') :: w2 ++
      ('<') :: x ++ patIdDq B ++ y =
      (u ++ ('<') :: v ++ patIdDq A ++ w1 ++ [('>')]) ++
        (w2 ++ ('<') :: x ++ patIdDq B ++ y) by simp]
    rw [show sp = (u ++ ('<') :: v ++ patIdDq A ++ w1 ++ [('>')]).length by
      rw [hsp]; simp; omega]
    exact List.drop_left _ _
  -- the slice between startPos and the end pattern
  have hslice1 : slice doc sp (sp + (w2.length + (1 + x.length))) =
      w2 ++ ('<') :: x := by
    rw [hdoc]
    rw [show u ++ ('<') :: v ++ patIdDq A ++ w1 ++ ('>') :: w2 ++
      ('<') :: x ++ patIdDq B ++ y =
      (u ++ ('<') :: v ++ patIdDq A ++ w1 ++ [('>')]) ++
        (w2 ++ ('<') :: x ++ patIdDq B ++ y) by simp]
    rw [show sp = (u ++ ('<') :: v ++ patIdDq A ++ w1 ++ [('>')]).length by
      rw [hsp]; simp; omega]
    rw [slice_concat]
    rw [show w2 ++ ('<') :: x ++ patIdDq B ++ y =
      w2 ++ (('<') :: (x ++ patIdDq B ++ y)) by simp]
    rw [List.take_append]
    rw [show 1 + x.length = x.length + 1 by omega, List.take_succ_cons]
    rw [show x ++ patIdDq B ++ y = x ++ (patIdDq B ++ y) by simp]
    rw [List.take_left]
  have hlast : strLastIndex (slice doc sp (sp + (w2.length + (1 + x.length))))
      (str ("<")) = some w2.length := by
    rw [hslice1, show (str ("<")) = [('<')] from rfl]
    exact strLastIndex_last ('<') w2 x hx
  have hendloop : findEndLoop doc sp (anchorPatterns B) =
      some (sp + w2.length) :=
    findEndLoop_first doc B sp _ _ (by rw [hdrop2]; rw [hdrop2] at hend; exact hend) hlast
  have hfapB : findAnchorPositions doc A B =
      (some sp, some (sp + w2.length), some u.length) := by
    unfold findAnchorPositions
    rw [hstart]
    simp only [ne_eq, hB, not_false_iff, if_true, hendloop]
  have hfapNil : findAnchorPositions doc A [] =
      (some sp, none, some u.length) := by
    unfold findAnchorPositions
    rw [hstart]
    simp
  -- final slice for the two-anchor case
  have hsliceB : slice doc u.length (sp + w2.length) =
      ('<') :: v ++ patIdDq A ++ w1 ++ ('>') :: w2 := by
    rw [hdoc]
    rw [show u ++ ('<') :: v ++ patIdDq A ++ w1 ++ ('>') :: w2 ++
      ('<') :: x ++ patIdDq B ++ y =
      u ++ ((('<') :: v ++ patIdDq A ++ w1 ++ ('>') :: w2) ++
        (('<') :: x ++ patIdDq B ++ y)) by simp]
    rw [show sp + w2.length =
      u.length + (('<') :: v ++ patIdDq A ++ w1 ++ ('>') :: w2).length by
      rw [hsp]; simp; omega]
    rw [slice_concat, List.take_left]
  have htrimB : ¬ trimSpace (('<') :: v ++ patIdDq A ++ w1 ++ ('>') :: w2) = [] := by
    rw [show ('<') :: v ++ patIdDq A ++ w1 ++ ('>') :: w2 =
      ('<') :: (v ++ patIdDq A ++ w1 ++ ('>') :: w2) by simp]
    exact trimSpace_cons_ne ('<') _ (by decide)
  -- final slice for the empty-end-anchor case
  have hsliceNil : slice doc u.length doc.length =
      ('<') :: v ++ patIdDq A ++ w1 ++ ('>') :: w2 ++
        ('<') :: x ++ patIdDq B ++ y := by
    unfold slice
    rw [List.take_length]
    rw [hdoc]
    rw [show u ++ ('<') :: v ++ patIdDq A ++ w1 ++ ('>') :: w2 ++
      ('<') :: x ++ patIdDq B ++ y =
      u ++ (('<') :: v ++ patIdDq A ++ w1 ++ ('>') :: w2 ++
        ('<') :: x ++ patIdDq B ++ y) by simp]
    exact List.drop_left _ _
  have htrimNil : ¬ trimSpace (('<') :: v ++ patIdDq A ++ w1 ++ ('>') :: w2 ++
      ('<') :: x ++ patIdDq B ++ y) = [] := by
    rw [show ('<') :: v ++ patIdDq A ++ w1 ++ ('>') :: w2 ++
      ('<') :: x ++ patIdDq B ++ y =
      ('<') :: (v ++ patIdDq A ++ w1 ++ ('>') :: w2 ++
        ('<') :: x ++ patIdDq B ++ y) by simp]
    exact trimSpace_cons_ne ('<') _ (by decide)
  refine ⟨?_, ?_, ?_⟩
  · have := ExtractBetweenAnchors_fast parse render doc A B
      (some sp) (some (sp + w2.length)) u.length hne hA hfapB
      (by simp only [Option.getD]; rw [hsliceB]; exact htrimB)
    rw [this]
    simp only [Option.getD]
    rw [hsliceB]
  · have := ExtractBetweenAnchors_fast parse render doc A []
      (some sp) none u.length hne hA hfapNil
      (by simp only [Option.getD]; rw [hsliceNil]; exact htrimNil)
    rw [this]
    simp only [Option.getD]
    rw [hsliceNil]
  · exact ⟨('<') :: x ++ patIdDq B ++ y, by simp⟩


/-- C1 counterexample: `c1Doc` contains anchor `A` (on its `div`) preceding
anchor `B` (on its second `p`) in document order, yet `ExtractBetweenAnchors`
returns a substring beginning at the earlier `<p>` whose text merely contains
the literal `id="A"` — not at the opening `<` of the tag carrying `A` as the
claim states (the returned string does not start with `<div id="A">`). -/
theorem C1_counterexample :
    anyHasAnchor (str ("A")) c1Tree = true ∧
    anyHasAnchor (str ("B")) c1Tree = true ∧
    ExtractBetweenAnchors c1Parse c1Render c1Doc (str ("A")) (str ("B")) =
      Except.ok (str ("<p>id=\"A\"</p><div id=\"A\">hi</div>")) ∧
    (str ("<div id=\"A\">")).isPrefixOf
      (str ("<p>id=\"A\"</p><div id=\"A\">hi</div>")) = false := by
  refine ⟨by decide, by decide, by rfl, by decide⟩

/-- C1 amended, witness: concrete instantiation of `C1_amended`. -/
theorem C1_amended_witness :
    ExtractBetweenAnchors c1Parse c1Render c1WDoc (str ("A")) (str ("B")) =
      Except.ok (str ("<div id=\"A\">hi</div>")) := by
  have h := C1_amended c1Parse c1Render (str ("<a>t</a>")) (str ("div "))
    [] (str ("hi</div>")) (str ("p ")) (str (">y</p>")) (str ("A")) (str ("B"))
    (by decide) (by decide) (by decide) (by decide) (by decide) (by decide)
    c1WDoc (by decide) (by decide) (by decide)
  exact h.1.trans (by rfl)


/-- C5: `ExtractBetweenAnchors` fails with `EmptyContent` on empty input;
for non-empty input and a non-empty start anchor it fails with
`AnchorNotFound` exactly when no start-anchor attribute pattern occurs in
the raw text (the fast strategy finds nothing) and no node of the parsed
tree carries the anchor (the DOM strategy finds nothing); and every
successful result contains at least one non-whitespace character. -/
theorem C5_error_contract (parse : Str → HtmlNode) (render : HtmlNode → Str)
    (content A nA : Str) :
    (content = [] → ExtractBetweenAnchors parse render content A nA =
      Except.error ExtractErr.emptyContent) ∧
    (¬ content = [] → ¬ A = [] →
      (ExtractBetweenAnchors parse render content A nA =
          Except.error ExtractErr.anchorNotFound ↔
        (∀ pat ∈ anchorPatterns A, strIndexN content pat = none) ∧
        anyHasAnchor A (parse content) = false)) ∧
    (∀ r, ExtractBetweenAnchors parse render content A nA = Except.ok r →
      ∃ c ∈ r, goIsSpace c = false) := by
  refine ⟨?_, ?_, ?_⟩
  · intro h0
    unfold ExtractBetweenAnchors
    rw [if_pos h0]
  · intro h0 h1
    constructor
    · intro herr
      constructor
      · rcases hstp : (findStartLoop content (anchorPatterns A) none).2
          with _ | t
        · rcases findStartLoop_cases content (anchorPatterns A) none with
            ⟨_, hall⟩ | ⟨pat, hpat, pos, hpos, hstp2, _⟩
          · exact hall
          · rw [hstp] at hstp2
            cases hstp2
        · obtain ⟨r, hok⟩ :=
            extract_ok_of_stp parse render content A nA h0 h1 t hstp
          rw [hok] at herr
          cases herr
      · have hinv := extract_anchorNotFound_inv parse render content A nA herr
        rw [extractContentDOM_found] at hinv
        exact hinv
    · rintro ⟨hall, hfound⟩
      have heq : findStartLoop content (anchorPatterns A) none =
          (none, none) := by
        rcases findStartLoop_cases content (anchorPatterns A) none with
          ⟨heq, _⟩ | ⟨pat, hpat, pos, hpos, _, _⟩
        · exact heq
        · rw [hall pat hpat] at hpos
          cases hpos
      have hfap : findAnchorPositions content A nA = (none, none, none) := by
        rw [findAnchorPositions_eq, heq]
      have hdom : (extractContentDOM render (parse content) A nA true).1 =
          false := by
        rw [extractContentDOM_found]
        exact hfound
      unfold ExtractBetweenAnchors
      rw [if_neg h0, if_neg h1, hfap]
      simp [hdom]
  · intro r hok
    exact exists_nonspace_of_trim_ne_nil r
      (extract_ok_inv parse render content A nA r hok)

/-- C5 witness: a document with no anchors at all yields `AnchorNotFound`
(and the empty-content and success cases evaluated concretely). -/
theorem C5_error_contract_witness :
    ExtractBetweenAnchors c5Parse c1Render c5Doc (str ("zz")) [] =
      Except.error ExtractErr.anchorNotFound ∧
    ExtractBetweenAnchors c5Parse c1Render [] (str ("zz")) [] =
      Except.error ExtractErr.emptyContent := by
  constructor
  · exact ((C5_error_contract c5Parse c1Render c5Doc (str ("zz")) []).2.1
      (by decide) (by decide)).mpr ⟨by decide, by decide⟩
  · exact (C5_error_contract c5Parse c1Render [] (str ("zz")) []).1 rfl


/-- C8 counterexample: tokenizing `"hello" // note 42` does NOT produce a
numeric token: the `//.*` alternative swallows the rest of the line, so the
token list is the string token, ONE space, and one comment token containing
`note 42`; no numeric color marker `[#FF8800]` appears in the colorized
output. -/
theorem C8_counterexample :
    tokenizeCode c8Line =
      [str ("\"hello\""), str (" "), str ("// note 42")] ∧
    (¬ str ("42") ∈ tokenizeCode c8Line) ∧
    strIndexN (highlightUniversal c8Line) (str ("[#FF8800]")) = none := by
  refine ⟨by decide, by decide, by decide⟩

/-- C8 amended: the line tokenizes into exactly a double-quoted string
token, a single whitespace run, and one line-comment token that extends to
the end of the line (covering `note 42`); the string and comment tokens are
wrapped in the distinct string/comment color markers and the whitespace
passes through unchanged; the numeral is part of the comment token, not a
separate numeric token. -/
theorem C8_amended :
    tokenizeCode c8Line =
      [str ("\"hello\""), str (" "), str ("// note 42")] ∧
    colorizeToken (str ("\"hello\"")) =
      str ("[#FFFF00]") ++ str ("\"hello\"") ++ str ("[-]") ∧
    colorizeToken (str ("// note 42")) =
      str ("[#00FF00]") ++ str ("// note 42") ++ str ("[-]") ∧
    colorizeToken (str (" ")) = str (" ") ∧
    highlightUniversal c8Line =
      str ("[#FFFF00]\"hello\"[-] [#00FF00]// note 42[-]") := by
  refine ⟨by decide, by decide, by decide, by decide, by decide⟩


/-- C9 counterexample: the single line "a" has visible length 1 < 5, yet
re-applying `FormatLines` at width 5 to its own output does not reproduce
it — every application appends one blank separator line per input line, so
the blank lines double. -/
theorem C9_counterexample :
    (str ("a")).length < 5 ∧
    (mkPlainParser [str ("a")]).FormatLines 5 = [str ("a"), []] ∧
    (mkPlainParser ((mkPlainParser [str ("a")]).FormatLines 5)).FormatLines 5 =
      [str ("a"), [], [], []] ∧
    ¬ (mkPlainParser ((mkPlainParser [str ("a")]).FormatLines 5)).FormatLines 5 =
        (mkPlainParser [str ("a")]).FormatLines 5 := by
  refine ⟨by decide, by decide, by decide, by decide⟩

/-- C9 amended: for plain lines each strictly narrower than the width, the
formatter is idempotent up to the blank separator lines it inserts: the
non-blank lines of `FormatLines (FormatLines L)` equal the non-blank lines
of `FormatLines L`.  Full idempotence fails only because each application
appends one blank separator per line (see the counterexample). -/
theorem C9_amended (L : List Str) (width : Nat) (hw : ¬ width = 0)
    (hnarrow : ∀ l ∈ L, l.length < width) :
    ((mkPlainParser ((mkPlainParser L).FormatLines width)).FormatLines
        width).filter (fun y : Str => !y.isEmpty) =
      ((mkPlainParser L).FormatLines width).filter
        (fun y : Str => !y.isEmpty) := by
  rw [FormatLines_plain ((mkPlainParser L).FormatLines width) width hw]
  rw [FormatLines_plain L width hw]
  rw [filter_flatMap_comm, filter_flatMap_comm]
  induction L with
  | nil => rfl
  | cons l L ih =>
    have hnl : l.length < width := hnarrow l (List.mem_cons_self _ _)
    have hnL : ∀ x ∈ L, x.length < width :=
      fun x hx => hnarrow x (List.mem_cons_of_mem _ hx)
    rw [List.flatMap_cons, List.flatMap_append, ih hnL, List.flatMap_cons]
    congr 1
    exact filter_g_per_line l width hnl

/-- C9 amended, witness. -/
theorem C9_amended_witness :
    ((mkPlainParser ((mkPlainParser [str ("a  b"), str (" ")]).FormatLines
        7)).FormatLines 7).filter (fun y : Str => !y.isEmpty) =
      ((mkPlainParser [str ("a  b"), str (" ")]).FormatLines 7).filter
        (fun y : Str => !y.isEmpty) :=
  C9_amended [str ("a  b"), str (" ")] 7 (by decide) (by decide)

/-! ### C10: placeholder-list algebra -/

lemma noBracket_append (a b : Str) :
    noBracket (a ++ b) = (noBracket a && noBracket b) := by
  simp [noBracket, List.any_append]

lemma isPH_nil : isPH ([] : Str) = false := by decide

lemma isPH_eq_false_of_noBracket (l : Str) (h : noBracket l = true) :
    isPH l = false := by
  by_contra hph
  rw [Bool.not_eq_false, isPH, List.isPrefixOf_iff_prefix] at hph
  obtain ⟨t, ht⟩ := hph
  rw [noBracket, ← ht] at h
  simp [str, List.any_append] at h

lemma isPH_imgPlaceholder (k : Nat) (alt : Str) :
    isPH (imgPlaceholder k alt) = true := by
  rw [isPH, List.isPrefixOf_iff_prefix, imgPlaceholder]
  split
  · exact List.prefix_append _ _
  · exact List.prefix_append _ _

lemma phIndexOk_imgPlaceholder (k : Nat) (alt : Str) :
    phIndexOk k (imgPlaceholder k alt) = true := by
  rw [phIndexOk, imgPlaceholder]
  split
  · simp only [decide_eq_true_eq]
    right
    rw [List.isPrefixOf_iff_prefix]
    refine ⟨alt ++ str ("]"), ?_⟩
    simp [List.append_assoc]
  · simp

lemma placeholders_append (a b : List Str) :
    placeholderLines (a ++ b) = placeholderLines a ++ placeholderLines b :=
  List.filter_append a b

lemma placeholders_snoc_nonPH (l : List Str) (x : Str) (hx : isPH x = false) :
    placeholderLines (l ++ [x]) = placeholderLines l := by
  rw [placeholders_append]
  simp [placeholderLines, hx]

lemma placeholders_snoc_nil (l : List Str) :
    placeholderLines (l ++ [[]]) = placeholderLines l :=
  placeholders_snoc_nonPH l [] isPH_nil

lemma getLastD_concat' (l : List Str) (x : Str) :
    (l ++ [x]).getLastD [] = x := by
  induction l with
  | nil => rfl
  | cons a t ih =>
    rcases t with _ | ⟨b, t2⟩
    · rfl
    · simpa using ih

lemma dropLast_concat_getLastD (l : List Str) (h : ¬ l = []) :
    l.dropLast ++ [l.getLastD []] = l := by
  induction l with
  | nil => exact absurd rfl h
  | cons a t ih =>
    rcases t with _ | ⟨b, t2⟩
    · rfl
    · have := ih (by simp)
      simpa using this

lemma placeholders_appendToLast (l : List Str) (sfx : Str)
    (hl : noBracket (l.getLastD []) = true) (hs : noBracket sfx = true)
    (hne : ¬ l = []) :
    placeholderLines (appendToLast l sfx) = placeholderLines l := by
  have hlast : isPH (l.getLastD [] ++ sfx) = false :=
    isPH_eq_false_of_noBracket _ (by rw [noBracket_append, hl, hs]; rfl)
  have holdlast : isPH (l.getLastD []) = false := isPH_eq_false_of_noBracket _ hl
  rw [appendToLast, placeholders_snoc_nonPH _ _ hlast]
  conv_rhs => rw [← dropLast_concat_getLastD l hne]
  rw [placeholders_snoc_nonPH _ _ holdlast]

lemma phIndexOk_all_congr (L1 L2 : List Str) (h : L1 = L2)
    (H : ∀ k (hk : k < L2.length), phIndexOk k (L2.get ⟨k, hk⟩) = true) :
    ∀ k (hk : k < L1.length), phIndexOk k (L1.get ⟨k, hk⟩) = true := by
  subst h
  exact H

lemma ImgInv_of_eq (p q : HTMLParser) (ht : q.text = p.text)
    (hi : q.images = p.images) (hb : q.buffer = p.buffer)
    (h : ImgInv p) : ImgInv q := by
  obtain ⟨h1, h2, h3, h4, h5⟩ := h
  exact ⟨by rw [ht, hi]; exact h1, phIndexOk_all_congr _ _ (by rw [ht]) h2,
    by rw [ht]; exact h3, by rw [hb]; exact h4, by rw [ht]; exact h5⟩

lemma ImgInv_extend (p q : HTMLParser) (bs : List Str)
    (hb : ∀ b ∈ bs, isPH b = false)
    (hlast : noBracket ((p.text ++ bs).getLastD []) = true)
    (ht : q.text = p.text ++ bs) (hi : q.images = p.images)
    (hbuf : q.buffer = p.buffer) (h : ImgInv p) : ImgInv q := by
  obtain ⟨h1, h2, h3, h4, h5⟩ := h
  have hph : placeholderLines (p.text ++ bs) = placeholderLines p.text := by
    rw [placeholders_append]
    have : placeholderLines bs = [] := by
      simp only [placeholderLines, List.filter_eq_nil_iff]
      intro b hbm
      simp [hb b hbm]
    rw [this, List.append_nil]
  refine ⟨?_, ?_, ?_, ?_, ?_⟩
  · rw [ht, hi, hph]; exact h1
  · exact phIndexOk_all_congr _ _ (by rw [ht, hph]) h2
  · rw [ht]; exact hlast
  · rw [hbuf]; exact h4
  · rw [ht]; intro hcon
    rcases List.append_eq_nil.mp hcon with ⟨hp0, _⟩
    exact h5 hp0

lemma ImgInv_bufferExtend (p q : HTMLParser) (sfx : Str)
    (hs : noBracket sfx = true) (ht : q.text = p.text)
    (hi : q.images = p.images) (hb : q.buffer = p.buffer ++ sfx)
    (h : ImgInv p) : ImgInv q := by
  obtain ⟨h1, h2, h3, h4, h5⟩ := h
  refine ⟨by rw [ht, hi]; exact h1, phIndexOk_all_congr _ _ (by rw [ht]) h2,
    by rw [ht]; exact h3, ?_, by rw [ht]; exact h5⟩
  rw [hb, noBracket_append, h4, hs]
  rfl

lemma ImgInv_appendBlank (p q : HTMLParser)
    (ht : q.text = appendBlankIfNeeded p.text) (hi : q.images = p.images)
    (hb : q.buffer = p.buffer) (h : ImgInv p) : ImgInv q := by
  rw [appendBlankIfNeeded] at ht
  split at ht
  · exact ImgInv_extend p q [[]] (by simp [isPH_nil])
      (by rw [getLastD_concat']; rfl) ht hi hb h
  · exact ImgInv_of_eq p q ht hi hb h

lemma handleEndTag_inv (p : HTMLParser) (n : HtmlNode) (h : ImgInv p) :
    ImgInv (handleEndTag p n) := by
  rw [handleEndTag]
  split
  · refine ImgInv_extend p _ [[], []] (by simp [isPH_nil]) ?_ rfl rfl rfl h
    have e : p.text ++ [([] : Str), []] = (p.text ++ [[]]) ++ [[]] := by simp
    rw [e, getLastD_concat']
    rfl
  split
  · exact ImgInv_extend p _ [[]] (by simp [isPH_nil])
      (by rw [getLastD_concat']; rfl) rfl rfl rfl h
  split
  · exact ImgInv_of_eq p _ rfl rfl rfl h
  split
  · exact ImgInv_appendBlank p _ rfl rfl rfl h
  split
  · exact ImgInv_appendBlank p _ rfl rfl rfl h
  split
  · split
    · exact ImgInv_of_eq p _ rfl rfl rfl h
    · exact ImgInv_of_eq p _ rfl rfl rfl h
  split
  · exact ImgInv_appendBlank p _ rfl rfl rfl h
  split
  · exact ImgInv_bufferExtend p _ (str ("\x7d")) (by decide) rfl rfl rfl h
  split
  · exact ImgInv_extend p _ [[]] (by simp [isPH_nil])
      (by rw [getLastD_concat']; rfl) rfl rfl rfl h
  exact ImgInv_of_eq p _ rfl rfl rfl h

lemma handleStartTag_inv (unescape : Str → Str) (p : HTMLParser)
    (n : HtmlNode)
    (himg : ¬ (n.data = str ("img") ∨ n.data = str ("image")))
    (h : ImgInv p) : ImgInv (handleStartTag unescape p n) := by
  unfold handleStartTag
  simp only []
  split
  · exact ImgInv_of_eq p _ rfl rfl rfl h
  split
  · exact ImgInv_of_eq p _ rfl rfl rfl h
  split
  · exact ImgInv_of_eq p _ rfl rfl rfl h
  split
  · split
    · exact ImgInv_of_eq p _ rfl rfl rfl h
    · exact ImgInv_of_eq p _ rfl rfl rfl h
  split
  · exact ImgInv_of_eq p _ rfl rfl rfl h
  split
  · exact ImgInv_of_eq p _ rfl rfl rfl h
  split
  · exact ImgInv_bufferExtend p _ (str ("^\x7b")) (by decide) rfl rfl rfl h
  split
  · exact ImgInv_bufferExtend p _ (str ("_\x7b")) (by decide) rfl rfl rfl h
  split
  · exact ImgInv_extend p _ [[]] (by simp [isPH_nil])
      (by rw [getLastD_concat']; rfl) rfl rfl rfl h
  exact ImgInv_of_eq p _ rfl rfl rfl h

lemma handleText_flush_inv (p1 : HTMLParser) (h : ImgInv p1) :
    ImgInv { p1 with text := appendToLast p1.text p1.buffer, buffer := [] } := by
  obtain ⟨h1, h2, h3, h4, h5⟩ := h
  refine ⟨?_, ?_, ?_, rfl, ?_⟩
  · show (placeholderLines (appendToLast p1.text p1.buffer)).length =
      p1.images.length
    rw [placeholders_appendToLast _ _ h3 h4 h5]
    exact h1
  · exact phIndexOk_all_congr _ _ (placeholders_appendToLast _ _ h3 h4 h5) h2
  · show noBracket ((appendToLast p1.text p1.buffer).getLastD []) = true
    rw [appendToLast, getLastD_concat', noBracket_append, h3, h4]
    rfl
  · show ¬ appendToLast p1.text p1.buffer = []
    rw [appendToLast]
    simp

lemma flagChain_inv (p2 : HTMLParser) (li : Nat) (h : ImgInv p2) :
    ImgInv (if p2.isHead then { p2 with headIDs := p2.headIDs ++ [li] }
      else if p2.isBull then { p2 with bullIDs := p2.bullIDs ++ [li] }
      else if p2.isInde then { p2 with indeIDs := p2.indeIDs ++ [li] }
      else if p2.isPref then
        (if p2.isCode then
          { p2 with prefIDs := p2.prefIDs ++ [li],
                    codeIDs := p2.codeIDs ++ [li] }
         else { p2 with prefIDs := p2.prefIDs ++ [li] })
      else p2) := by
  split
  · exact ImgInv_of_eq _ _ rfl rfl rfl h
  split
  · exact ImgInv_of_eq _ _ rfl rfl rfl h
  split
  · exact ImgInv_of_eq _ _ rfl rfl rfl h
  split
  · split
    · exact ImgInv_of_eq _ _ rfl rfl rfl h
    · exact ImgInv_of_eq _ _ rfl rfl rfl h
  exact h

lemma handleTextCore_inv (unescape : Str → Str) (p : HTMLParser) (D : Str)
    (hD : noBracket (unescape D) = true)
    (hDc : noBracket (unescape (collapseWs D)) = true)
    (h : ImgInv p) : ImgInv (handleTextCore unescape p D) := by
  unfold handleTextCore
  simp only []
  by_cases hpref : p.isPref = true
  · rw [if_pos hpref]
    have hp1 : ImgInv { p with buffer := p.buffer ++ unescape D } :=
      ImgInv_bufferExtend p _ _ hD rfl rfl rfl h
    have hp2 := handleText_flush_inv _ hp1
    by_cases hfl : ¬ ({ p with buffer := p.buffer ++ unescape D } :
        HTMLParser).buffer = []
    · rw [if_pos hfl]
      exact flagChain_inv _ _ hp2
    · rw [if_neg hfl]
      exact hp1
  · rw [if_neg hpref]
    have hp1 : ImgInv { p with buffer :=
        (p.buffer ++ unescape (collapseWs D)) } :=
      ImgInv_bufferExtend p _ _ hDc rfl rfl rfl h
    have hp2 := handleText_flush_inv _ hp1
    by_cases hfl : ¬ ({ p with buffer :=
        (p.buffer ++ unescape (collapseWs D)) } : HTMLParser).buffer = []
    · rw [if_pos hfl]
      exact flagChain_inv _ _ hp2
    · rw [if_neg hfl]
      exact hp1

lemma handleText_inv (unescape : Str → Str) (p : HTMLParser) (data : Str)
    (ha : noBracket (unescape data) = true)
    (hb : noBracket (unescape (collapseWs data)) = true)
    (hc : noBracket (unescape (data.dropWhile goIsSpace)) = true)
    (hd : noBracket (unescape (collapseWs (data.dropWhile goIsSpace))) = true)
    (h : ImgInv p) : ImgInv (handleText unescape p data) := by
  unfold handleText
  split
  · exact h
  refine handleTextCore_inv unescape p _ ?_ ?_ h
  · split
    · exact hc
    · exact ha
  · split
    · exact hd
    · exact hb

lemma phIndexOk_all_snoc (L : List Str) (x : Str)
    (hL : ∀ k (hk : k < L.length), phIndexOk k (L.get ⟨k, hk⟩) = true)
    (hx : phIndexOk L.length x = true) :
    ∀ k (hk : k < (L ++ [x]).length),
      phIndexOk k ((L ++ [x]).get ⟨k, hk⟩) = true := by
  intro k hk
  rw [List.get_eq_getElem]
  rcases Nat.lt_or_ge k L.length with hlt | hge
  · rw [List.getElem_append_left hlt]
    have := hL k hlt
    rw [List.get_eq_getElem] at this
    exact this
  · have hk2 : k < L.length + 1 := by simpa using hk
    have hkL : k = L.length := by omega
    subst hkL
    rw [List.getElem_concat_length]
    exact hx
    rfl

lemma ImgInv_imgAppend (p q : HTMLParser) (alt src : Str)
    (ht : q.text = (p.text ++ [imgPlaceholder p.images.length alt]) ++ [[]])
    (hi : q.images = p.images ++ [src])
    (hb : q.buffer = p.buffer)
    (h : ImgInv p) : ImgInv q := by
  obtain ⟨h1, h2, h3, h4, h5⟩ := h
  have hph : placeholderLines q.text =
      placeholderLines p.text ++ [imgPlaceholder p.images.length alt] := by
    rw [ht, placeholders_snoc_nil, placeholders_append]
    congr 1
    simp [placeholderLines, isPH_imgPlaceholder]
  refine ⟨?_, ?_, ?_, by rw [hb]; exact h4, ?_⟩
  · rw [hph, hi]
    simp [h1]
  · refine phIndexOk_all_congr _ _ hph ?_
    refine phIndexOk_all_snoc _ _ h2 ?_
    rw [h1]
    exact phIndexOk_imgPlaceholder _ _
  · rw [ht, getLastD_concat']
    rfl
  · rw [ht]
    simp

lemma img_node_inv (unescape : Str → Str) (p : HTMLParser)
    (t : HtmlNodeType) (d : Str) (a : List HtmlAttr)
    (hd : d = str ("img") ∨ d = str ("image")) (h : ImgInv p) :
    ImgInv (handleEndTag
      (handleStartTag unescape p (HtmlNode.node t d a []))
      (HtmlNode.node t d a [])) := by
  rcases hd with hd | hd
  · subst hd
    have e2 : ∀ q : HTMLParser,
        handleEndTag q (HtmlNode.node t (str ("img")) a []) =
        { q with text := q.text ++ [[]], currentTag := [] } := fun q => rfl
    have e1 : handleStartTag unescape p (HtmlNode.node t (str ("img")) a []) =
        (if ¬ (findSrcAlt (str ("img")) a).1 = [] then
          { p with
            text := (p.text ++
              [imgPlaceholder p.images.length (findSrcAlt (str ("img")) a).2]),
            images := (p.images ++ [unescape (findSrcAlt (str ("img")) a).1]),
            currentTag := str ("img") }
         else { p with currentTag := str ("img") }) := rfl
    rw [e1]
    by_cases hsa : ¬ (findSrcAlt (str ("img")) a).1 = []
    · rw [if_pos hsa, e2]
      exact ImgInv_imgAppend p _ _ _ rfl rfl rfl h
    · rw [if_neg hsa, e2]
      exact ImgInv_extend p _ [[]] (by simp [isPH_nil])
        (by rw [getLastD_concat']; rfl) rfl rfl rfl h
  · subst hd
    have e2 : ∀ q : HTMLParser,
        handleEndTag q (HtmlNode.node t (str ("image")) a []) =
        { q with text := q.text ++ [[]], currentTag := [] } := fun q => rfl
    have e1 : handleStartTag unescape p
        (HtmlNode.node t (str ("image")) a []) =
        (if ¬ (findSrcAlt (str ("image")) a).1 = [] then
          { p with
            text := (p.text ++
              [imgPlaceholder p.images.length
                (findSrcAlt (str ("image")) a).2]),
            images := (p.images ++
              [unescape (findSrcAlt (str ("image")) a).1]),
            currentTag := str ("image") }
         else { p with currentTag := str ("image") }) := rfl
    rw [e1]
    by_cases hsa : ¬ (findSrcAlt (str ("image")) a).1 = []
    · rw [if_pos hsa, e2]
      exact ImgInv_imgAppend p _ _ _ rfl rfl rfl h
    · rw [if_neg hsa, e2]
      exact ImgInv_extend p _ [[]] (by simp [isPH_nil])
        (by rw [getLastD_concat']; rfl) rfl rfl rfl h

mutual

/-- Walking a well-formed node preserves the placeholder invariant. -/
theorem parseNode_inv (unescape : Str → Str) :
    ∀ (n : HtmlNode) (p : HTMLParser), nodeOk unescape n = true →
    ImgInv p → ImgInv (parseNode unescape p n)
  | HtmlNode.node t d a c, p, hok, hp => by
    simp only [nodeOk, Bool.and_eq_true] at hok
    obtain ⟨⟨htxt, himgok⟩, hkids⟩ := hok
    simp only [parseNode]
    by_cases ht : t = HtmlNodeType.elementNode
    · rw [if_pos ht, if_pos ht]
      by_cases himg : d = str ("img") ∨ d = str ("image")
      · rw [if_pos ⟨ht, himg⟩] at himgok
        have hc : c = [] := List.isEmpty_iff.mp himgok
        subst hc
        exact img_node_inv unescape p t d a himg hp
      · have h1 : ImgInv (handleStartTag unescape p (HtmlNode.node t d a c)) :=
          handleStartTag_inv unescape p _ himg hp
        have h2 := parseNodeList_inv unescape c _ hkids h1
        exact handleEndTag_inv _ _ h2
    · rw [if_neg ht, if_neg ht]
      by_cases htt : t = HtmlNodeType.textNode
      · rw [if_pos htt]
        rw [if_pos htt] at htxt
        simp only [Bool.and_eq_true] at htxt
        obtain ⟨⟨⟨ha, hb⟩, hc⟩, hd2⟩ := htxt
        have h1 := handleText_inv unescape p d ha hb hc hd2 hp
        exact parseNodeList_inv unescape c _ hkids h1
      · rw [if_neg htt]
        exact parseNodeList_inv unescape c _ hkids hp

/-- List version of `parseNode_inv`. -/
theorem parseNodeList_inv (unescape : Str → Str) :
    ∀ (ns : List HtmlNode) (p : HTMLParser), listOk unescape ns = true →
    ImgInv p → ImgInv (parseNodeList unescape p ns)
  | [], p, _, hp => hp
  | n :: ns, p, hok, hp => by
    simp only [listOk, Bool.and_eq_true] at hok
    obtain ⟨h1, h2⟩ := hok
    simp only [parseNodeList]
    exact parseNodeList_inv unescape ns _ h2 (parseNode_inv unescape n p h1 hp)

end

/-- C10: for a parsed document in which image elements are childless (as
`html.Parse` guarantees for the void `img` element) and every text node's
data decodes bracket-free under each decoding the text handler applies,
the `[IMG:`-prefixed placeholder lines that `Parse` leaves in the rendered
text correspond one-to-one with the collected image list: there are exactly
`images.length` of them and, in document order, the `k`-th placeholder line
carries embedded index `k` (0-based). -/
theorem C10_placeholder_indices (unescape : Str → Str)
    (parse : Str → HtmlNode) (content : Str)
    (hok : nodeOk unescape (parse content) = true) :
    (placeholderLines
      (HTMLParser.Parse unescape parse NewHTMLParser content).text).length =
      (HTMLParser.Parse unescape parse NewHTMLParser content).images.length ∧
    ∀ k (hk : k < (placeholderLines
        (HTMLParser.Parse unescape parse NewHTMLParser content).text).length),
      phIndexOk k ((placeholderLines
        (HTMLParser.Parse unescape parse NewHTMLParser content).text).get
          ⟨k, hk⟩) = true := by
  have h0 : ImgInv NewHTMLParser := by
    refine ⟨rfl, ?_, rfl, rfl, by decide⟩
    intro k hk
    simp [NewHTMLParser, placeholderLines, isPH_nil] at hk
  have hinv := parseNode_inv unescape (parse content) NewHTMLParser hok h0
  exact ⟨hinv.1, hinv.2.1⟩

/-- Witness for `C10_placeholder_indices` at a concrete two-image
document with identity unescaping. -/
theorem C10_placeholder_indices_witness :
    nodeOk (fun s => s) C10doc = true ∧
    ((placeholderLines (HTMLParser.Parse (fun s => s) (fun _ => C10doc)
        NewHTMLParser []).text).length =
      (HTMLParser.Parse (fun s => s) (fun _ => C10doc)
        NewHTMLParser []).images.length ∧
    ∀ k (hk : k < (placeholderLines (HTMLParser.Parse (fun s => s)
        (fun _ => C10doc) NewHTMLParser []).text).length),
      phIndexOk k ((placeholderLines (HTMLParser.Parse (fun s => s)
        (fun _ => C10doc) NewHTMLParser []).text).get ⟨k, hk⟩) = true) :=
  ⟨by decide, C10_placeholder_indices (fun s => s) (fun _ => C10doc) []
    (by decide)⟩

/-- C6: when the anchor extraction of a virtual chapter fails (an
extraction error, or a successful but empty extraction), and the earlier
steps succeed (valid index, file found in Contents, chapter content read,
TOC entry present as the lockstep construction guarantees),
`readVirtualChapter` still succeeds: it parses and displays the whole
physical file (the word-wrapped full-file rendering, or the raw file
content when that rendering is blank) with the full file's images. -/
theorem C6_full_file_fallback (parse : Str → HtmlNode)
    (render : HtmlNode → Str) (unescape : Str → Str)
    (getChapter : Nat → Except Str Str) (book : BookSt) (width : Nat)
    (virtualIndex : Nat) (fi : Nat) (fc : Str)
    (hvi : virtualIndex < book.virtualContents.length)
    (hvt : virtualIndex < book.virtualTOCEntries.length)
    (hfi : book.contents.findIdx? (fun c =>
      c = (book.virtualContents.getD virtualIndex ⟨[], []⟩).filePath) =
      some fi)
    (hgc : getChapter fi = Except.ok fc)
    (hext : ExtractBetweenAnchors parse render fc
        (book.virtualContents.getD virtualIndex ⟨[], []⟩).fragment
        (rvcNextAnchor book virtualIndex) = Except.ok [] ∨
      ∃ e, ExtractBetweenAnchors parse render fc
        (book.virtualContents.getD virtualIndex ⟨[], []⟩).fragment
        (rvcNextAnchor book virtualIndex) = Except.error e) :
    readVirtualChapter parse render unescape getChapter book width
      virtualIndex =
    Except.ok
      ((if trimSpace (joinNl ((HTMLParser.Parse unescape parse
            NewHTMLParser fc).FormatLines width)) = [] then fc
        else joinNl ((HTMLParser.Parse unescape parse
            NewHTMLParser fc).FormatLines width)),
       book.virtualTOCEntries.getD virtualIndex [],
       (HTMLParser.Parse unescape parse NewHTMLParser fc).GetImages) := by
  unfold readVirtualChapter
  rw [if_neg (by omega)]
  rw [hfi]
  simp only [rvcWithIndex]
  rw [hgc]
  simp only [rvcWithChapter]
  unfold rvcAfterFile
  simp only []
  rcases hext with hok | ⟨e, herr⟩
  · rw [hok]
    simp only [rvcParseExtract]
    rw [if_neg (not_not_intro trivial)]
  · rw [herr]
    simp only [rvcParseExtract]

/-- Witness for `C6_full_file_fallback`: a one-chapter book whose anchor
is nowhere in the file, so extraction fails with `anchorNotFound` and the
whole file is rendered. -/
theorem C6_full_file_fallback_witness :
    (let book : BookSt := ⟨[str ("c1.html")],
        [⟨str ("c1.html"), str ("frag")⟩], [str ("Ch1")]⟩
     let parse : Str → HtmlNode := fun _ =>
       HtmlNode.node HtmlNodeType.textNode (str ("hello")) [] []
     let render : HtmlNode → Str := fun _ => []
     let unescape : Str → Str := fun s => s
     let getChapter : Nat → Except Str Str := fun _ =>
       Except.ok (str ("hello"))
     readVirtualChapter parse render unescape getChapter book 10 0 =
       Except.ok
         ((if trimSpace (joinNl ((HTMLParser.Parse unescape parse
               NewHTMLParser (str ("hello"))).FormatLines 10)) = []
           then str ("hello")
           else joinNl ((HTMLParser.Parse unescape parse
               NewHTMLParser (str ("hello"))).FormatLines 10)),
          book.virtualTOCEntries.getD 0 [],
          (HTMLParser.Parse unescape parse
            NewHTMLParser (str ("hello"))).GetImages)) :=
  C6_full_file_fallback _ _ _ _ _ 10 0 0 (str ("hello"))
    (by decide) (by decide) (by decide) rfl
    (Or.inr ⟨ExtractErr.anchorNotFound, rfl⟩)

/-! ### C2/C4: the TOC builder bridge lemmas -/

mutual

theorem processNested_spec (u : Nat → Str) :
    ∀ (pt : NavPoint) (l : TOCDList) (ctr level : Nat) (pid : Str),
    ((processNestedNavPoints u pt l ctr none level pid).1).slice =
      l.slice ++ navItems u ctr level pid pt ∧
    (processNestedNavPoints u pt l ctr none level pid).2.1 =
      ctr + navCount pt ∧
    (processNestedNavPoints u pt l ctr none level pid).2.2 = none
  | NavPoint.mk label src cs, l, ctr, level, pid => by
    simp only [processNestedNavPoints, DListAdd]
    have h := processNavChildren_spec u cs
      ⟨l.heap ++ [⟨⟨u ctr, pid, label, (splitPathAndFragment src).1,
          (splitPathAndFragment src).2, level,
          decide (0 < cs.length)⟩, none, none⟩],
       some l.heap.length,
       l.slice ++ [⟨u ctr, pid, label, (splitPathAndFragment src).1,
          (splitPathAndFragment src).2, level,
          decide (0 < cs.length)⟩]⟩
      (ctr + 1) (level + 1) (u ctr)
    refine ⟨?_, ?_, ?_⟩
    · rw [h.1]
      simp [navItems, navCount, List.append_assoc]
    · rw [h.2.1]
      simp [navCount]
      omega
    · exact h.2.2

theorem processNavChildren_spec (u : Nat → Str) :
    ∀ (cs : List NavPoint) (l : TOCDList) (ctr lvl : Nat) (pid : Str),
    ((processNavChildren u cs l ctr none lvl pid).1).slice =
      l.slice ++ navItemsList u ctr lvl pid cs ∧
    (processNavChildren u cs l ctr none lvl pid).2.1 =
      ctr + navCountList cs ∧
    (processNavChildren u cs l ctr none lvl pid).2.2 = none
  | [], l, ctr, lvl, pid => by
    simp [processNavChildren, navItemsList, navCountList]
  | c :: cs, l, ctr, lvl, pid => by
    simp only [processNavChildren]
    have h1 := processNested_spec u c l ctr lvl pid
    rw [h1.2.2, h1.2.1]
    have h2 := processNavChildren_spec u cs
      (processNestedNavPoints u c l ctr none lvl pid).1
      (ctr + navCount c) lvl pid
    refine ⟨?_, ?_, ?_⟩
    · rw [h2.1, h1.1]
      simp [navItemsList, List.append_assoc]
    · rw [h2.2.1]
      simp [navCountList]
      omega
    · exact h2.2.2

end

theorem genTOCLoop_spec (u : Nat → Str) :
    ∀ (pts : List NavPoint) (l : TOCDList) (ctr : Nat),
    ((genTOCLoop u pts l ctr none).1).slice =
      l.slice ++ genItems u ctr pts
  | [], l, ctr => by simp [genTOCLoop, genItems]
  | pt :: pts, l, ctr => by
    simp only [genTOCLoop]
    have h1 := processNested_spec u pt l (ctr + 1) 0 (u ctr)
    rw [h1.2.2, h1.2.1]
    rw [genTOCLoop_spec u pts _ (ctr + 1 + navCount pt)]
    rw [h1.1]
    simp [genItems, List.append_assoc]

theorem generateTOC_ncx_slice (u : Nat → Str) (pts : List NavPoint) :
    (generateTOC_ncx u pts).slice = genItems u 0 pts := by
  unfold generateTOC_ncx
  rw [genTOCLoop_spec]
  rfl

mutual

theorem navItems_length (u : Nat → Str) :
    ∀ (ctr level : Nat) (pid : Str) (pt : NavPoint),
    (navItems u ctr level pid pt).length = navCount pt
  | ctr, level, pid, NavPoint.mk label src cs => by
    simp only [navItems, navCount, List.length_cons]
    rw [navItemsList_length u (ctr + 1) (level + 1) (u ctr) cs]
    omega

theorem navItemsList_length (u : Nat → Str) :
    ∀ (ctr lvl : Nat) (pid : Str) (cs : List NavPoint),
    (navItemsList u ctr lvl pid cs).length = navCountList cs
  | ctr, lvl, pid, [] => by simp [navItemsList, navCountList]
  | ctr, lvl, pid, c :: cs => by
    simp only [navItemsList, navCountList, List.length_append]
    rw [navItems_length u ctr lvl pid c,
      navItemsList_length u (ctr + navCount c) lvl pid cs]

end

theorem genItems_length (u : Nat → Str) :
    ∀ (ctr : Nat) (pts : List NavPoint),
    (genItems u ctr pts).length = navCountList pts
  | ctr, [] => by simp [genItems, navCountList]
  | ctr, pt :: pts => by
    simp only [genItems, navCountList, List.length_append]
    rw [navItems_length, genItems_length u (ctr + 1 + navCount pt) pts]

mutual

theorem navItems_ids (u : Nat → Str) :
    ∀ (ctr level : Nat) (pid : Str) (pt : NavPoint),
    (navItems u ctr level pid pt).map TOCValue.id =
      (List.range' ctr (navCount pt)).map u
  | ctr, level, pid, NavPoint.mk label src cs => by
    simp only [navItems, navCount, List.map_cons]
    rw [navItemsList_ids u (ctr + 1) (level + 1) (u ctr) cs]
    rw [Nat.add_comm 1 (navCountList cs)]
    rw [show navCountList cs + 1 = navCountList cs + 1 from rfl,
      List.range'_succ ctr (navCountList cs)]
    simp

theorem navItemsList_ids (u : Nat → Str) :
    ∀ (ctr lvl : Nat) (pid : Str) (cs : List NavPoint),
    (navItemsList u ctr lvl pid cs).map TOCValue.id =
      (List.range' ctr (navCountList cs)).map u
  | ctr, lvl, pid, [] => by simp [navItemsList, navCountList]
  | ctr, lvl, pid, c :: cs => by
    simp only [navItemsList, navCountList, List.map_append]
    rw [navItems_ids u ctr lvl pid c,
      navItemsList_ids u (ctr + navCount c) lvl pid cs]
    have hr := List.range'_append ctr (navCount c) (navCountList cs) 1
    rw [Nat.one_mul] at hr
    rw [← List.map_append, hr, Nat.add_comm (navCountList cs) (navCount c)]

end

theorem genItems_ids (u : Nat → Str) :
    ∀ (ctr : Nat) (pts : List NavPoint),
    (genItems u ctr pts).map TOCValue.id = (genCtrs ctr pts).map u
  | ctr, [] => by simp [genItems, genCtrs]
  | ctr, pt :: pts => by
    simp only [genItems, genCtrs, List.map_append]
    rw [navItems_ids, genItems_ids u (ctr + 1 + navCount pt) pts]

theorem genCtrs_bounds :
    ∀ (pts : List NavPoint) (ctr x : Nat), x ∈ genCtrs ctr pts →
    ctr < x ∧ x < ctr + pts.length + navCountList pts
  | [], ctr, x => by simp [genCtrs]
  | pt :: pts, ctr, x => by
    intro hx
    simp only [genCtrs, List.mem_append] at hx
    simp only [navCountList, List.length_cons]
    rcases hx with h | h
    · rw [List.mem_range'_1] at h
      omega
    · have := genCtrs_bounds pts (ctr + 1 + navCount pt) x h
      omega

theorem genCtrs_pairwise :
    ∀ (pts : List NavPoint) (ctr : Nat),
    (genCtrs ctr pts).Pairwise (· < ·)
  | [], ctr => by simp [genCtrs]
  | pt :: pts, ctr => by
    simp only [genCtrs]
    rw [List.pairwise_append]
    refine ⟨List.pairwise_lt_range' _ _, genCtrs_pairwise pts _, ?_⟩
    intro x hx y hy
    rw [List.mem_range'_1] at hx
    have := genCtrs_bounds pts _ y hy
    omega

theorem genNavLoop_ids :
    ∀ (lks : List NavLink) (l : TOCDList),
    (∀ v ∈ l.slice, v.id = []) →
    ∀ v ∈ ((genNavLoop lks l none).1).slice, v.id = []
  | [], l => by
    intro h
    simpa [genNavLoop] using h
  | lk :: lks, l => by
    intro h
    simp only [genNavLoop, DListAdd]
    refine genNavLoop_ids lks _ ?_
    intro v hv
    rcases List.mem_append.mp hv with hv | hv
    · exact h v hv
    · rw [List.mem_singleton] at hv
      rw [hv]

theorem navItemsList_infix (u : Nat → Str) :
    ∀ (cs : List NavPoint) (ctr lvl : Nat) (pid : Str) (c : NavPoint),
    c ∈ cs → ∃ ctr2 pre post,
      navItemsList u ctr lvl pid cs =
        pre ++ navItems u ctr2 lvl pid c ++ post
  | [], ctr, lvl, pid, c => by simp
  | c0 :: cs, ctr, lvl, pid, c => by
    intro hc
    rcases List.mem_cons.mp hc with h | h
    · subst h
      exact ⟨ctr, [], navItemsList u (ctr + navCount c) lvl pid cs, by
        simp [navItemsList]⟩
    · obtain ⟨ctr2, pre, post, he⟩ :=
        navItemsList_infix u cs (ctr + navCount c0) lvl pid c h
      exact ⟨ctr2, navItems u ctr lvl pid c0 ++ pre, post, by
        simp [navItemsList, he, List.append_assoc]⟩

/-- C2 counterexample: a two-node nested NCX built against a three-entry
spine has `Len() = 2 ≠ 3` (`generateTOC` never consults the spine), and
the EPUB 3 navigation branch builds nodes whose ids are all the empty
zero value, hence neither non-empty nor pairwise distinct. -/
theorem C2_counterexample :
    DListLen (generateTOC_ncx natToStr C2navPoints) = 2 ∧
    C2spine.length = 3 ∧
    ¬ DListLen (generateTOC_ncx natToStr C2navPoints) = C2spine.length ∧
    (∀ v ∈ (generateTOC_nav C2navLinks).slice, v.id = []) ∧
    ¬ (generateTOC_nav C2navLinks).slice.Pairwise
      (fun a b => ¬ a.id = b.id) := by decide

/-- C2 amended: with an injective, never-empty uuid source, the NCX
branch builds exactly one node per navigation point — `Len()` equals the
total recursive nav-point count, not the spine length — and those ids
are non-empty and pairwise distinct; the EPUB 3 navigation branch leaves
every id empty. -/
theorem C2_amended (u : Nat → Str) (navPoints : List NavPoint)
    (navLinks : List NavLink)
    (hinj : ∀ m n : Nat, u m = u n → m = n)
    (hne : ∀ n : Nat, ¬ u n = []) :
    DListLen (generateTOC_ncx u navPoints) = navCountList navPoints ∧
    (∀ v ∈ (generateTOC_ncx u navPoints).slice, ¬ v.id = []) ∧
    (generateTOC_ncx u navPoints).slice.Pairwise
      (fun a b => ¬ a.id = b.id) ∧
    (∀ v ∈ (generateTOC_nav navLinks).slice, v.id = []) := by
  have hs := generateTOC_ncx_slice u navPoints
  refine ⟨?_, ?_, ?_, ?_⟩
  · rw [DListLen, hs, genItems_length]
  · intro v hv
    rw [hs] at hv
    have hid : v.id ∈ (genItems u 0 navPoints).map TOCValue.id :=
      List.mem_map_of_mem TOCValue.id hv
    rw [genItems_ids] at hid
    rcases List.mem_map.mp hid with ⟨n, hn, hun⟩
    rw [← hun]
    exact hne n
  · rw [hs]
    have hpw : ((genItems u 0 navPoints).map TOCValue.id).Pairwise
        (fun a b => ¬ a = b) := by
      rw [genItems_ids]
      refine List.Pairwise.map u (fun a b hab hEq => ?_)
        (genCtrs_pairwise navPoints 0)
      have := hinj a b hEq
      omega
    exact (List.pairwise_map).mp hpw
  · intro v hv
    refine genNavLoop_ids navLinks NewDList ?_ v hv
    intro w hw
    simp [NewDList] at hw

/-- Witness for `C2_amended`: the length-indexed uuid source
`n ↦ "x"*(n+1)` is injective and never empty; the amended statement then
holds at the concrete two-node NCX and two-link nav document. -/
theorem C2_amended_witness :
    ((∀ m n : Nat, List.replicate (m + 1) ('x') =
        List.replicate (n + 1) ('x') → m = n) ∧
     (∀ n : Nat, ¬ List.replicate (n + 1) ('x') = ([] : Str))) ∧
    (DListLen (generateTOC_ncx (fun n => List.replicate (n + 1) ('x'))
        C2navPoints) = navCountList C2navPoints ∧
     (∀ v ∈ (generateTOC_ncx (fun n => List.replicate (n + 1) ('x'))
        C2navPoints).slice, ¬ v.id = []) ∧
     (generateTOC_ncx (fun n => List.replicate (n + 1) ('x'))
        C2navPoints).slice.Pairwise (fun a b => ¬ a.id = b.id) ∧
     (∀ v ∈ (generateTOC_nav C2navLinks).slice, v.id = [])) :=
  ⟨⟨fun m n h => by
      have h2 := congrArg List.length h
      simp at h2
      omega,
    fun n => by simp⟩,
   C2_amended (fun n => List.replicate (n + 1) ('x')) C2navPoints
     C2navLinks
     (fun m n h => by
       have h2 := congrArg List.length h
       simp at h2
       omega)
     (fun n => by simp)⟩

/-- C4: the A > B > C nesting produces exactly three nodes at levels 0,
1, 2 with C's parentID = B's id and B's parentID = A's id; in general,
the slice block a nav point contributes contains, for each nested child,
exactly the block that processing that child at `level + 1` with the
parent's freshly drawn id as `parentID` produces, and the first node of
any block carries the given level, parentID and the id drawn at the
current counter. -/
theorem C4_nested_levels :
    ((generateTOC_ncx natToStr C4abc).slice.map TOCValue.level =
        [0, 1, 2] ∧
     ((generateTOC_ncx natToStr C4abc).slice.getD 1
        ⟨[], [], [], [], [], 0, false⟩).parentID =
       ((generateTOC_ncx natToStr C4abc).slice.getD 0
        ⟨[], [], [], [], [], 0, false⟩).id ∧
     ((generateTOC_ncx natToStr C4abc).slice.getD 2
        ⟨[], [], [], [], [], 0, false⟩).parentID =
       ((generateTOC_ncx natToStr C4abc).slice.getD 1
        ⟨[], [], [], [], [], 0, false⟩).id) ∧
    (∀ (u : Nat → Str) (l : TOCDList) (ctr level : Nat) (pid : Str)
       (label src : Str) (cs : List NavPoint), ∀ c ∈ cs,
      ∃ ctr2 pre post,
        ((processNestedNavPoints u (NavPoint.mk label src cs) l ctr none
            level pid).1).slice =
          pre ++
          ((processNestedNavPoints u c NewDList ctr2 none (level + 1)
              (u ctr)).1).slice ++ post) ∧
    (∀ (u : Nat → Str) (l : TOCDList) (ctr level : Nat) (pid : Str)
       (pt : NavPoint), ∃ v rest,
        ((processNestedNavPoints u pt l ctr none level pid).1).slice =
          l.slice ++ v :: rest ∧
        v.level = level ∧ v.parentID = pid ∧ v.id = u ctr) := by
  refine ⟨by decide, ?_, ?_⟩
  · intro u l ctr level pid label src cs c hc
    obtain ⟨ctr2, pre, post, he⟩ :=
      navItemsList_infix u cs (ctr + 1) (level + 1) (u ctr) c hc
    refine ⟨ctr2, l.slice ++
      [⟨u ctr, pid, label, (splitPathAndFragment src).1,
        (splitPathAndFragment src).2, level,
        decide (0 < cs.length)⟩] ++ pre, post, ?_⟩
    rw [(processNested_spec u (NavPoint.mk label src cs) l ctr level
      pid).1]
    rw [(processNested_spec u c NewDList ctr2 (level + 1) (u ctr)).1]
    simp only [navItems, NewDList, List.nil_append]
    rw [he]
    simp [List.append_assoc]
  · intro u l ctr level pid pt
    obtain ⟨label, src, cs⟩ := pt
    refine ⟨⟨u ctr, pid, label, (splitPathAndFragment src).1,
        (splitPathAndFragment src).2, level, decide (0 < cs.length)⟩,
      navItemsList u (ctr + 1) (level + 1) (u ctr) cs, ?_, rfl, rfl,
      rfl⟩
    rw [(processNested_spec u (NavPoint.mk label src cs) l ctr level
      pid).1]
    simp [navItems]

end Goread
